import Mathlib

/-!
Verification development for the dynamic incomplete Cholesky / ILU kernels of
`sparse-iter/control/magma_zmdynamicilu_tools.cpp`.

The factor is a linked-CSR matrix: per-slot arrays `val`, `col`, `rowidx`, a
per-row head pointer `row`, and a linked-list array `list` with sentinels
`0` (end of row, slot 0 reserved) and `-1` (freed slot).  Complex scalars are
modelled as rationals; `magma_zsqrt` is an uninterpreted function parameter.
The OpenMP-parallel kernels mutate disjoint rows (or disjoint slots), so they
are modelled as deterministic per-row / per-slot functions reading the
pre-kernel state, which is one legal schedule of the data-parallel code.
-/

/-- Linked-CSR factor, mirroring the fields of `magma_z_matrix` that the
kernels touch.  Arrays are total functions out of slot indices. -/
structure SparseMat where
  num_rows : Nat
  nnz : Nat
  row : Nat → Nat
  col : Nat → Nat
  rowidx : Nat → Nat
  val : Nat → ℚ
  list : Nat → Int

/-- Candidate list in COO format (`LU_new`). -/
structure Cand where
  nnz : Nat
  rowidx : Nat → Nat
  col : Nat → Nat
  val : Nat → ℚ

/-- Classic CSR input matrix `A` (immutable). -/
structure CSR where
  row : Nat → Nat
  col : Nat → Nat
  val : Nat → ℚ

/-- Follow the `list` links from slot `s` for at most `fuel` hops, collecting
the visited slots; stops at the terminator slot 0. -/
def chainFrom (M : SparseMat) : Nat → Nat → List Nat
  | 0, _ => []
  | fuel+1, s => if s = 0 then [] else s :: chainFrom M fuel (M.list s).toNat

/-- The chain of row `r`: the slots visited when following `list` from
`row[r]`, with fuel `nnz` (enough for any well-formed factor). -/
def rowChain (M : SparseMat) (r : Nat) : List Nat :=
  chainFrom M M.nnz (M.row r)

/-- `IsChainSeg M s l t`: starting at slot `s`, the links walk exactly through
the slots of `l` (in order, all nonzero, all with non-negative `list`) and end
pointing at `t`. -/
def IsChainSeg (M : SparseMat) : Nat → List Nat → Nat → Prop
  | s, [], t => s = t
  | s, x :: xs, t => s = x ∧ x ≠ 0 ∧ 0 ≤ M.list x ∧ IsChainSeg M (M.list x).toNat xs t

/-- A complete chain: a segment ending at the terminator 0. -/
def LinkChain (M : SparseMat) (s : Nat) (l : List Nat) : Prop :=
  IsChainSeg M s l 0

instance instDecIsChainSeg (M : SparseMat) :
    ∀ (s : Nat) (l : List Nat) (t : Nat), Decidable (IsChainSeg M s l t)
  | s, [], t => inferInstanceAs (Decidable (s = t))
  | s, x :: xs, t =>
    haveI := instDecIsChainSeg M (M.list x).toNat xs t
    inferInstanceAs (Decidable (s = x ∧ x ≠ 0 ∧ 0 ≤ M.list x ∧
      IsChainSeg M (M.list x).toNat xs t))

instance (M : SparseMat) (s : Nat) (l : List Nat) : Decidable (LinkChain M s l) :=
  inferInstanceAs (Decidable (IsChainSeg M s l 0))

/-- A well-formed row chain (invariants I1-I5 restricted to row `r`, chain
`l`): the links from `row[r]` walk `l` and terminate, the row is non-empty,
columns strictly increase along the chain, the last column is the diagonal
`r`, every slot's `rowidx` is `r`, and slots are within the arena. -/
def GoodRow (M : SparseMat) (r : Nat) (l : List Nat) : Prop :=
  LinkChain M (M.row r) l ∧ l ≠ [] ∧ (l.map M.col).Chain' (· < ·) ∧
    (l.map M.col).getLast? = some r ∧ (∀ s ∈ l, M.rowidx s = r) ∧ ∀ s ∈ l, s < M.nnz

/-- Invariants I1-I5 of the factor: every row's computed chain is well formed. -/
def InvMat (M : SparseMat) : Prop :=
  ∀ r, r < M.num_rows → GoodRow M r (rowChain M r)

/-- State of the merge-walk loop shared by the sweep and the residual kernel:
cursors `i`, `j` into the two row chains, the previous cursors `iold`, `jold`,
the accumulated sum and the product of the last matching step. -/
structure MW where
  i : Nat
  j : Nat
  iold : Nat
  jold : Nat
  sum : ℚ
  lsum : ℚ

/-- One body execution of the do-while merge walk (sweep lines 502-519,
residuals lines 599-616). -/
def mwBody (M : SparseMat) (s : MW) : MW :=
  if M.col s.i = M.col s.j then
    { i := (M.list s.i).toNat, j := (M.list s.j).toNat, iold := s.i, jold := s.j,
      sum := s.sum + M.val s.i * M.val s.j, lsum := M.val s.i * M.val s.j }
  else if M.col s.i < M.col s.j then
    { i := (M.list s.i).toNat, j := s.j, iold := s.i, jold := s.j,
      sum := s.sum, lsum := 0 }
  else
    { i := s.i, j := (M.list s.j).toNat, iold := s.i, jold := s.j,
      sum := s.sum, lsum := 0 }

/-- The do-while merge walk: execute the body, then continue while both
cursors are nonzero (`while( i!=0 && j!=0 )`); `fuel` only bounds the
iteration count, which invariants make finite. -/
def mwLoop (M : SparseMat) : Nat → MW → MW
  | 0, s => s
  | fuel+1, s =>
    let s2 := mwBody M s
    if s2.i ≠ 0 ∧ s2.j ≠ 0 then mwLoop M fuel s2 else s2

/-- Linear scan of CSR row `r` of `A` for column `c` (sweep lines 491-495,
residuals lines 588-592); the last match wins, default 0. -/
def lookupA (A : CSR) (r c : Nat) : ℚ :=
  (List.range' (A.row r) (A.row (r+1) - A.row r)).foldl
    (fun acc k => if A.col k = c then A.val k else acc) 0

/-- The value the sweep writes at slot `e` (body of the parallel loop,
lines 482-528). -/
def sweepVal (A : CSR) (zsqrt : ℚ → ℚ) (M : SparseMat) (e : Nat) : ℚ :=
  let r := M.rowidx e
  let c := M.col e
  let Ae := lookupA A r c
  let s := mwLoop M (2 * M.nnz)
    { i := M.row r, j := M.row c, iold := M.row r, jold := M.row c, sum := 0, lsum := 0 }
  let sum := s.sum - s.lsum
  if r = c then zsqrt (Ae - sum) else (Ae - sum) / M.val s.jold

/-- One iterative IC sweep (`magma_zmdynamicic_sweep`): every live slot
(`list[e] != -1`) is recomputed in parallel from the pre-sweep values. -/
def magma_zmdynamicic_sweep (A : CSR) (zsqrt : ℚ → ℚ) (M : SparseMat) : SparseMat :=
  { M with val := fun e =>
      if e < M.nnz ∧ M.list e ≠ -1 then sweepVal A zsqrt M e else M.val e }

/-- The value the residual kernel writes at candidate `e`
(`magma_zmdynamicic_residuals`, lines 579-621): same merge walk, but the
final `sum = sum - lsum` correction is absent and the signed difference is
stored. -/
def residualVal (A : CSR) (M : SparseMat) (r c : Nat) : ℚ :=
  let Ae := lookupA A r c
  let s := mwLoop M (2 * M.nnz)
    { i := M.row r, j := M.row c, iold := M.row r, jold := M.row c, sum := 0, lsum := 0 }
  Ae - s.sum

/-- Residual evaluation over the candidate list (`magma_zmdynamicic_residuals`). -/
def magma_zmdynamicic_residuals (A : CSR) (LU : SparseMat) (Ln : Cand) : Cand :=
  { Ln with val := fun e =>
      if e < Ln.nnz then residualVal A LU (Ln.rowidx e) (Ln.col e) else Ln.val e }

/-- Value stored in row-list `l` at column `k` (0 when the column is absent). -/
def valInRow (M : SparseMat) (l : List Nat) (k : Nat) : ℚ :=
  match l.find? (fun s => M.col s = k) with
  | some s => M.val s
  | none => 0

/-- Columns present in both chains, in the order of the first chain. -/
def commonCols (M : SparseMat) (la lb : List Nat) : List Nat :=
  (la.map M.col).filter (fun k => decide (k ∈ lb.map M.col))

/-- Specification-level merge product: sum of `L[r,k] * L[c,k]` over all
columns `k` common to the two chains. -/
def matchSum (M : SparseMat) (la lb : List Nat) : ℚ :=
  ((commonCols M la lb).map (fun k => valInRow M la k * valInRow M lb k)).sum

/-- Specification-level merge product restricted to common columns `k < m`. -/
def specSumBelow (M : SparseMat) (la lb : List Nat) (m : Nat) : ℚ :=
  (((commonCols M la lb).filter (fun k => k < m)).map
    (fun k => valInRow M la k * valInRow M lb k)).sum

/-- The last slot of row `r`'s chain (the diagonal slot under the invariants). -/
def lastSlot (M : SparseMat) (r : Nat) : Nat :=
  (rowChain M r).getLastD 0

/-- One iteration step of the per-row removal loop of
`magma_zmdynamicilu_rm_thrs` (lines 321-364).  State: current matrix, the
freed-slot list collected so far (`rm_loc`), the previous slot `lasti`, the
current slot `i` and `nexti = list[i]`.  The loop runs `while (nexti != 0)`,
so the last chain element (the diagonal, by I5) is never examined. -/
def rmLoop (thrs : ℚ) (r : Nat) :
    Nat → SparseMat → List Nat → Nat → Nat → Nat → SparseMat × List Nat
  | 0, M, rm, _, _, _ => (M, rm)
  | fuel+1, M, rm, lasti, i, nexti =>
    if nexti = 0 then (M, rm)
    else if |M.val i| < |thrs| then
      let M1 : SparseMat := { M with val := Function.update M.val i 0,
                                     list := Function.update M.list i (-1) }
      if M1.row r = i then
        let M2 : SparseMat := { M1 with row := Function.update M1.row r nexti }
        rmLoop thrs r fuel M2 (rm ++ [i]) i nexti (M2.list nexti).toNat
      else
        let M2 : SparseMat := { M1 with list := Function.update M1.list lasti nexti }
        rmLoop thrs r fuel M2 (rm ++ [i]) lasti nexti (M2.list nexti).toNat
    else
      rmLoop thrs r fuel M rm i nexti (M.list nexti).toNat

/-- Removal over one row, started as in the source:
`i = row[r]; lasti = i; nexti = list[i]`. -/
def rmRow (thrs : ℚ) (r : Nat) (p : SparseMat × List Nat) : SparseMat × List Nat :=
  rmLoop thrs r p.1.nnz p.1 p.2 (p.1.row r) (p.1.row r) (p.1.list (p.1.row r)).toNat

/-- `magma_zmdynamicilu_rm_thrs`: remove every examined entry with magnitude
below `|thrs|`, row by row (the OpenMP rows are independent; the shared
`rm_loc`/counter pair is modelled by the accumulated list, whose length is
the returned `num_rm`). -/
def magma_zmdynamicilu_rm_thrs (thrs : ℚ) (M : SparseMat) : SparseMat × List Nat :=
  (List.range M.num_rows).foldl (fun p r => rmRow thrs r p) (M, [])

/-- The chain-splice loop of `magma_zmdynamicic_insert` (lines 127-150):
walk `j`/`jn`, skip on duplicate column, splice the freed slot `loc` before
the first larger column. -/
def spliceLoop (nr nc loc : Nat) :
    Nat → Nat → Nat → SparseMat → Nat → SparseMat × Nat
  | 0, _, _, M, nins => (M, nins)
  | fuel+1, j, jn, M, nins =>
    if j = 0 then (M, nins)
    else if M.col jn = nc then (M, nins)
    else if nc < M.col jn then
      ({ M with
          list := Function.update (Function.update M.list j (Int.ofNat loc)) loc (Int.ofNat jn),
          rowidx := Function.update M.rowidx loc nr,
          col := Function.update M.col loc nc,
          val := Function.update M.val loc 0 }, nins + 1)
    else spliceLoop nr nc loc fuel jn (M.list jn).toNat M nins

/-- One candidate processed by `magma_zmdynamicic_insert` (lines 105-151):
prepend before the row head, skip a duplicate head column, or run the
splice loop. -/
def insertBody (nr nc loc : Nat) (M : SparseMat) (nins : Nat) : SparseMat × Nat :=
  let ors := M.row nr
  if nc < M.col ors then
    ({ M with
        row := Function.update M.row nr loc,
        list := Function.update M.list loc (Int.ofNat ors),
        rowidx := Function.update M.rowidx loc nr,
        col := Function.update M.col loc nc,
        val := Function.update M.val loc 0 }, nins + 1)
  else if M.col ors = nc then (M, nins)
  else spliceLoop nr nc loc M.nnz ors (M.list ors).toNat M nins

/-- The graft loop of `magma_zmdynamicic_insert` (lines 99-156):
`while (num_insert < num_rm)`, breaking when the candidate cursor `i`
exceeds the candidate count; the freed-slot cursor is `num_insert`. -/
def insertLoop (Ln : Cand) (num_rm : Nat) (rmloc : Nat → Nat) :
    Nat → Nat → Nat → SparseMat → SparseMat × Nat
  | 0, _, nins, M => (M, nins)
  | fuel+1, i, nins, M =>
    if nins < num_rm then
      if Ln.nnz ≤ i then (M, nins)
      else
        let p := insertBody (Ln.rowidx i) (Ln.col i) (rmloc nins) M nins
        insertLoop Ln num_rm rmloc fuel (i+1) p.2 p.1
    else (M, nins)

/-- Modelled from the spec: `magma_zmorderstatistics` (component C2) is not
under `src/`; per the spec it permutes the value array so the extremal
magnitudes come first.  Modelled as a full sort by decreasing magnitude of
`LU_new.val[0..nnz)`.  As in the source call (line 93-94), only `val` is
permuted; `rowidx`/`col` keep their order and the graft loop never reads the
permuted values. -/
def rankCand (Ln : Cand) : Cand :=
  { Ln with val := fun i =>
      (((List.range Ln.nnz).map Ln.val).mergeSort (fun x y => |y| ≤ |x|)).getD i 0 }

/-- `magma_zmdynamicic_insert`: skip the round when `num_rm >= LU_new->nnz`
(line 86), otherwise rank the candidates and run the graft loop.  `osInfo`
is the status of the external order-statistics call; `CHECK` jumps to
cleanup with that status when it is nonzero.  Returns the factor, the number
of inserted elements and the `info` result code. -/
def magma_zmdynamicic_insert (osInfo : Int) (num_rm : Nat) (rmloc : Nat → Nat)
    (Ln : Cand) (M : SparseMat) : SparseMat × Nat × Int :=
  if Ln.nnz ≤ num_rm then (M, 0, 0)
  else if osInfo ≠ 0 then (M, 0, osInfo)
  else
    let Lr := rankCand Ln
    let p := insertLoop Lr num_rm rmloc Lr.nnz 0 0 M
    (p.1, p.2, 0)

/-- The `exist` scan of `magma_zmdynamicic_candidates_n` (lines 909-917):
walk the chain of `checkrow` looking for column `checkelement`, breaking on
the first hit. -/
def scanAux (M : SparseMat) (ce : Nat) : Nat → Nat → Bool
  | 0, _ => false
  | fuel+1, check =>
    if check = 0 then false
    else if M.col check = ce then true
    else scanAux M ce fuel (M.list check).toNat

/-- Scan row `checkrow` of the factor for column `checkelement`. -/
def scanExist (M : SparseMat) (checkrow checkelement : Nat) : Bool :=
  scanAux M checkelement M.nnz (M.row checkrow)

/-- Candidates produced for one row by `magma_zmdynamicic_candidates_n`
(lines 884-933): all pairs of chain slots `lcol1` (diagonal skipped) and
`lcol2` with `col2 < col1`; the pair is emitted at
`(max col1 col2, min col1 col2)` when the scan finds the position absent. -/
def candRow (M : SparseMat) (row : Nat) : List (Nat × Nat) :=
  (rowChain M row).flatMap (fun l1 =>
    if M.col l1 = row then []
    else (rowChain M row).filterMap (fun l2 =>
      if M.col l1 ≤ M.col l2 then none
      else if scanExist M (max (M.col l2) (M.col l1)) (min (M.col l1) (M.col l2)) then none
      else some (max (M.col l2) (M.col l1), min (M.col l1) (M.col l2))))

/-- The candidate positions emitted by `magma_zmdynamicic_candidates_n`
(the variant that is well-formed C++; the first variant, lines 655-791, does
not compile - misspelled pragma, undeclared `checkcol`). -/
def magma_zmdynamicic_candidates_n (M : SparseMat) : List (Nat × Nat) :=
  (List.range M.num_rows).flatMap (candRow M)

/-- The live value array `L.val[0..nnz)` as a list. -/
def valsList (M : SparseMat) : List ℚ := (List.range M.nnz).map M.val

/-- Modelled from the spec: the order-statistics selector
(`magma_zmorderstatistics`, component C2, not under `src/`) returns the
`k`-th extremal magnitude; for mode SMALLEST this is the `k`-th entry of the
magnitudes in increasing order. -/
def orderstatSmallest (l : List ℚ) (k : Nat) : ℚ :=
  ((l.map (fun x => |x|)).mergeSort (fun x y => x ≤ y)).getD k 0

/-- `magma_zmdynamicilu_set_thrs` (lines 409-439): copy `L.val` into a
scratch buffer, select the `num_rm`-th smallest magnitude on the scratch
copy, and return it; the factor is only read. -/
def magma_zmdynamicilu_set_thrs (num_rm : Nat) (M : SparseMat) : ℚ × SparseMat :=
  let scratch := valsList M
  (orderstatSmallest scratch num_rm, M)

/-- Specification-level `k`-th smallest magnitude of the factor values,
stated via insertion sort (an independent sorting algorithm, for the
refinement comparison in C9). -/
def kthSmallestMagnitude (M : SparseMat) (k : Nat) : ℚ :=
  (((valsList M).map (fun x => |x|)).insertionSort (· ≤ ·)).getD k 0

/-- Concrete well-formed 3-by-3 lower factor used by the witnesses:
row 0 = slot 1 (diagonal, value 2); row 1 = slots 2,3 (values 3, 5);
row 2 = slots 4,5 (values 7, 1). -/
def Wfac : SparseMat :=
  { num_rows := 3
    nnz := 6
    row := fun r => [1, 2, 4].getD r 0
    col := fun s => [0, 0, 0, 1, 0, 2].getD s 0
    rowidx := fun s => [0, 0, 1, 1, 2, 2].getD s 0
    val := fun s => ([0, 2, 3, 5, 7, 1] : List ℚ).getD s 0
    list := fun s => ([0, 0, 3, 0, 5, 0] : List Int).getD s 0 }

instance decChainLtNat (l : List Nat) : Decidable (l.Chain' (· < ·)) :=
  decidable_of_iff (l.Pairwise (· < ·)) List.chain'_iff_pairwise.symm

instance (M : SparseMat) (r : Nat) (l : List Nat) : Decidable (GoodRow M r l) :=
  inferInstanceAs (Decidable (_ ∧ _ ∧ _ ∧ _ ∧ _ ∧ _))

instance (M : SparseMat) : Decidable (InvMat M) :=
  inferInstanceAs (Decidable (∀ r, r < M.num_rows → GoodRow M r (rowChain M r)))

/-- The all-zero CSR input matrix (every row empty). -/
def Acsr0 : CSR := { row := fun _ => 0, col := fun _ => 0, val := fun _ => 0 }

/-- A one-candidate COO list at position (2,1), which is absent from `Wfac`. -/
def LnewC7 : Cand :=
  { nnz := 1, rowidx := fun _ => 2, col := fun _ => 1, val := fun _ => 0 }

/-- Concrete factor for the candidate-discovery witness: row 0 = slot 1
(column 0), row 1 = slot 2 (diagonal only), row 2 = slots 3,4,5 (columns
0, 1, 2).  Position (1,0) is absent and is discovered from row 2. -/
def Wc8 : SparseMat :=
  { num_rows := 3
    nnz := 6
    row := fun r => [1, 2, 3].getD r 0
    col := fun s => [0, 0, 1, 0, 1, 2].getD s 0
    rowidx := fun s => [0, 0, 1, 2, 2, 2].getD s 0
    val := fun s => ([0, 1, 1, 1, 1, 1] : List ℚ).getD s 0
    list := fun s => ([0, 0, 0, 4, 5, 0] : List Int).getD s 0 }

/-- The slots of chain `l` (last element excluded) whose magnitude is below
`|thrs|`: the slots the removal loop frees. -/
def remList (thrs : ℚ) (v : Nat → ℚ) (l : List Nat) : List Nat :=
  l.dropLast.filter (fun s => |v s| < |thrs|)

/-- The examined slots the removal loop keeps. -/
def keepList (thrs : ℚ) (v : Nat → ℚ) (l : List Nat) : List Nat :=
  l.dropLast.filter (fun s => ¬ |v s| < |thrs|)

/-- The chain of row `r` after threshold removal: the kept slots followed by
the untouched last element (the diagonal). -/
def newKeep (thrs : ℚ) (M0 : SparseMat) (r : Nat) : List Nat :=
  keepList thrs M0.val (rowChain M0 r) ++ [(rowChain M0 r).getLastD 0]

/-- Postcondition of the per-row removal loop started on chain `l` at slot
`i` with previous slot `lasti`: freed-slot list extended by the below-
threshold slots, `val`/`list` updated only there, other rows untouched, and
the remaining slots relinked into a chain. -/
def RmOut (thrs : ℚ) (r : Nat) (M : SparseMat) (rm : List Nat) (lasti i : Nat)
    (l : List Nat) (out : SparseMat × List Nat) : Prop :=
  out.2 = rm ++ remList thrs M.val l ∧
  out.1.num_rows = M.num_rows ∧
  out.1.nnz = M.nnz ∧
  out.1.col = M.col ∧
  out.1.rowidx = M.rowidx ∧
  (∀ s, out.1.val s = if s ∈ remList thrs M.val l then 0 else M.val s) ∧
  (∀ s ∈ remList thrs M.val l, out.1.list s = -1) ∧
  (∀ s, s ∉ l.dropLast → s ≠ lasti → out.1.list s = M.list s) ∧
  (∀ r2, r2 ≠ r → out.1.row r2 = M.row r2) ∧
  (M.row r = i →
    (∀ s, s ∉ l.dropLast → out.1.list s = M.list s) ∧
    LinkChain out.1 (out.1.row r) (keepList thrs M.val l ++ [l.getLastD 0])) ∧
  (M.row r ≠ i →
    out.1.row = M.row ∧
    LinkChain out.1 lasti (lasti :: (keepList thrs M.val l ++ [l.getLastD 0])))

/-- Invariant of the row-by-row fold of `magma_zmdynamicilu_rm_thrs` after
the first `k` rows have been processed. -/
def RmFold (thrs : ℚ) (M0 : SparseMat) (k : Nat) (p : SparseMat × List Nat) : Prop :=
  p.1.num_rows = M0.num_rows ∧
  p.1.nnz = M0.nnz ∧
  p.1.col = M0.col ∧
  p.1.rowidx = M0.rowidx ∧
  (∀ r2, k ≤ r2 → p.1.row r2 = M0.row r2) ∧
  (∀ r2, k ≤ r2 → r2 < M0.num_rows → ∀ s ∈ rowChain M0 r2,
      p.1.val s = M0.val s ∧ p.1.list s = M0.list s) ∧
  (∀ r2, r2 < k → r2 < M0.num_rows →
      LinkChain p.1 (p.1.row r2) (newKeep thrs M0 r2) ∧
      (∀ s ∈ newKeep thrs M0 r2, p.1.val s = M0.val s) ∧
      (∀ s ∈ remList thrs M0.val (rowChain M0 r2),
        p.1.val s = 0 ∧ p.1.list s = -1)) ∧
  (∀ s, s ∈ p.2 ↔ ∃ r2, r2 < k ∧ r2 < M0.num_rows ∧
      s ∈ remList thrs M0.val (rowChain M0 r2)) ∧
  p.2.Nodup

/-- The matrix after the removal loop frees the row-head slot `i` (zero the
value, mark the slot freed, advance the head pointer of row `r` to `nexti`). -/
def rmHeadUpd (M : SparseMat) (r i nexti : Nat) : SparseMat :=
  { M with val := Function.update M.val i 0, list := Function.update M.list i (-1), row := Function.update M.row r nexti }

/-- The matrix after the removal loop frees the mid-chain slot `i` (zero the
value, mark the slot freed, relink `list[lasti]` to `nexti`). -/
def rmMidUpd (M : SparseMat) (lasti i nexti : Nat) : SparseMat :=
  { M with val := Function.update M.val i 0, list := Function.update (Function.update M.list i (-1)) lasti (nexti : Int) }

/-- A freed slot available to the insertion routine: nonzero, in range, and
on no row's chain. -/
def FreeSlot (M : SparseMat) (s : Nat) : Prop :=
  s ≠ 0 ∧ s < M.nnz ∧ ∀ r, r < M.num_rows → s ∉ rowChain M r

instance (M : SparseMat) (s : Nat) : Decidable (FreeSlot M s) :=
  inferInstanceAs (Decidable (_ ∧ _ ∧ _))

/-- Postcondition of one candidate processed by the insertion routine at
position (`nr`,`nc`) with freed slot `loc`: a duplicate column leaves the
state untouched; otherwise the counter advances, the slot `loc` takes the
candidate's coordinates, and `loc` is spliced into row `nr`'s chain at its
column-sorted position, between the prefix of smaller columns and the
suffix of larger ones. -/
def InsOut (nr nc loc : Nat) (M : SparseMat) (nins : Nat)
    (out : SparseMat × Nat) : Prop :=
  (nc ∈ (rowChain M nr).map M.col → out = (M, nins)) ∧
  (nc ∉ (rowChain M nr).map M.col →
    out.2 = nins + 1 ∧
    out.1.num_rows = M.num_rows ∧
    out.1.nnz = M.nnz ∧
    (∀ r2, r2 ≠ nr → out.1.row r2 = M.row r2) ∧
    out.1.col = Function.update M.col loc nc ∧
    out.1.rowidx = Function.update M.rowidx loc nr ∧
    out.1.val = Function.update M.val loc 0 ∧
    (∀ s, s ≠ loc → s ∉ rowChain M nr → out.1.list s = M.list s) ∧
    ∃ q1 q2, rowChain M nr = q1 ++ q2 ∧ q2 ≠ [] ∧
      (∀ x ∈ q1, M.col x < nc) ∧
      (∀ x ∈ q2, nc < M.col x) ∧
      LinkChain out.1 (out.1.row nr) (q1 ++ loc :: q2))

/-- Concrete 3-by-3 factor with two freed slots (6 and 7), used by the
insertion witnesses: rows as in `Wfac`, slots 6 and 7 carry `list = -1`. -/
def Wins : SparseMat :=
  { num_rows := 3
    nnz := 8
    row := fun r => [1, 2, 4].getD r 0
    col := fun s => [0, 0, 0, 1, 0, 2, 0, 0].getD s 0
    rowidx := fun s => [0, 0, 1, 1, 2, 2, 0, 0].getD s 0
    val := fun s => ([0, 2, 3, 5, 7, 1, 0, 0] : List ℚ).getD s 0
    list := fun s => ([0, 0, 3, 0, 5, 0, -1, -1] : List Int).getD s 0 }

/-- Two-candidate COO list for the C5 witness: positions (2,1) and (2,0),
both below the diagonal of row 2. -/
def LnewC5 : Cand :=
  { nnz := 2, rowidx := fun _ => 2, col := fun i => [1, 0].getD i 0,
    val := fun _ => 0 }

/-- Three-candidate COO list for the C6 witness: (2,1) three times - the
first is inserted, the following duplicates are skipped. -/
def LnewC6 : Cand :=
  { nnz := 3, rowidx := fun _ => 2, col := fun _ => 1, val := fun _ => 0 }

/-- The matrix after the splice loop grafts slot `loc` between chain slots
`j` and `jn` (lines 139-146 of the source). -/
def spliceUpd (nr nc loc j jn : Nat) (M : SparseMat) : SparseMat := { M with list := Function.update (Function.update M.list j (Int.ofNat loc)) loc (Int.ofNat jn), rowidx := Function.update M.rowidx loc nr, col := Function.update M.col loc nc, val := Function.update M.val loc 0 }

/-- The matrix after the insertion routine prepends slot `loc` before the
old row head `ors` (lines 114-119 of the source). -/
def prependUpd (nr nc loc ors : Nat) (M : SparseMat) : SparseMat := { M with row := Function.update M.row nr loc, list := Function.update M.list loc (Int.ofNat ors), rowidx := Function.update M.rowidx loc nr, col := Function.update M.col loc nc, val := Function.update M.val loc 0 }

/-- Postcondition of the splice walk started at chain slot `j` with tail
`l2`: a duplicate column in the tail leaves the state untouched; otherwise
`loc` is grafted between the below-`nc` prefix and the above-`nc` suffix. -/
def SpliceOut (nr nc loc : Nat) (M : SparseMat) (nins : Nat) (j : Nat)
    (l2 : List Nat) (out : SparseMat × Nat) : Prop :=
  (nc ∈ l2.map M.col → out = (M, nins)) ∧
  (nc ∉ l2.map M.col →
    out.2 = nins + 1 ∧
    out.1.num_rows = M.num_rows ∧
    out.1.nnz = M.nnz ∧
    out.1.row = M.row ∧
    out.1.col = Function.update M.col loc nc ∧
    out.1.rowidx = Function.update M.rowidx loc nr ∧
    out.1.val = Function.update M.val loc 0 ∧
    (∀ s, s ≠ loc → s ∉ j :: l2 → out.1.list s = M.list s) ∧
    ∃ q1 q2, l2 = q1 ++ q2 ∧ q2 ≠ [] ∧
      (∀ x ∈ j :: q1, M.col x < nc) ∧
      (∀ x ∈ q2, nc < M.col x) ∧
      IsChainSeg out.1 j (j :: q1 ++ loc :: q2) 0)

theorem isChainSeg_nil (M : SparseMat) (s t : Nat) :
    IsChainSeg M s [] t ↔ s = t := Iff.rfl

theorem isChainSeg_cons (M : SparseMat) (s x t : Nat) (xs : List Nat) :
    IsChainSeg M s (x :: xs) t ↔
      s = x ∧ x ≠ 0 ∧ 0 ≤ M.list x ∧ IsChainSeg M (M.list x).toNat xs t := Iff.rfl

theorem isChainSeg_append (M : SparseMat) (xs : List Nat) :
    ∀ (s t : Nat) (ys : List Nat),
      IsChainSeg M s (xs ++ ys) t ↔ ∃ m, IsChainSeg M s xs m ∧ IsChainSeg M m ys t := by
  induction xs with
  | nil =>
    intro s t ys
    simp [isChainSeg_nil]
  | cons x xs ih =>
    intro s t ys
    simp only [List.cons_append, isChainSeg_cons, ih]
    constructor
    · rintro ⟨h1, h2, h3, m, h4, h5⟩
      exact ⟨m, ⟨h1, h2, h3, h4⟩, h5⟩
    · rintro ⟨m, ⟨h1, h2, h3, h4⟩, h5⟩
      exact ⟨h1, h2, h3, m, h4, h5⟩

theorem isChainSeg_congr {M M' : SparseMat} (xs : List Nat)
    (h : ∀ x ∈ xs, M'.list x = M.list x) :
    ∀ s t, IsChainSeg M' s xs t ↔ IsChainSeg M s xs t := by
  induction xs with
  | nil => intro s t; rfl
  | cons x xs ih =>
    intro s t
    have hx : M'.list x = M.list x := h x (by simp)
    simp only [isChainSeg_cons, hx]
    constructor
    · rintro ⟨h1, h2, h3, h4⟩
      exact ⟨h1, h2, h3, (ih (fun y hy => h y (by simp [hy])) _ _).mp h4⟩
    · rintro ⟨h1, h2, h3, h4⟩
      exact ⟨h1, h2, h3, (ih (fun y hy => h y (by simp [hy])) _ _).mpr h4⟩

theorem isChain_congr {M M' : SparseMat} (xs : List Nat)
    (h : ∀ x ∈ xs, M'.list x = M.list x) (s : Nat) :
    LinkChain M' s xs ↔ LinkChain M s xs :=
  isChainSeg_congr xs h s 0

theorem IsChainSeg.mem_ne_zero {M : SparseMat} {s t : Nat} {l : List Nat}
    (h : IsChainSeg M s l t) : ∀ x ∈ l, x ≠ 0 ∧ 0 ≤ M.list x := by
  induction l generalizing s with
  | nil => intro x hx; cases hx
  | cons y ys ih =>
    obtain ⟨h1, h2, h3, h4⟩ := h
    intro x hx
    rcases List.mem_cons.mp hx with rfl | hx
    · exact ⟨h2, h3⟩
    · exact ih h4 x hx

theorem LinkChain.head_eq {M : SparseMat} {s x : Nat} {xs : List Nat}
    (h : LinkChain M s (x :: xs)) : s = x := h.1

theorem isChain_unique {M : SparseMat} {s : Nat} :
    ∀ {l₁ l₂ : List Nat}, LinkChain M s l₁ → LinkChain M s l₂ → l₁ = l₂ := by
  intro l₁
  induction l₁ generalizing s with
  | nil =>
    intro l₂ h1 h2
    cases l₂ with
    | nil => rfl
    | cons y ys =>
      obtain ⟨rfl, hy, _, _⟩ := h2
      exact absurd h1 hy
  | cons x xs ih =>
    intro l₂ h1 h2
    obtain ⟨rfl, hx, hpos, hrest⟩ := h1
    cases l₂ with
    | nil => exact absurd h2 hx
    | cons y ys =>
      obtain ⟨hy, _, _, hrest'⟩ := h2
      subst hy
      rw [ih hrest hrest']

theorem chainFrom_eq_of_isChain {M : SparseMat} :
    ∀ {l : List Nat} {s fuel : Nat}, LinkChain M s l → l.length ≤ fuel →
      chainFrom M fuel s = l := by
  intro l
  induction l with
  | nil =>
    intro s fuel h _
    have hs : s = 0 := h
    cases fuel with
    | zero => rfl
    | succ n => simp [chainFrom, hs]
  | cons x xs ih =>
    intro s fuel h hlen
    obtain ⟨rfl, hx, _, hrest⟩ := h
    cases fuel with
    | zero => simp at hlen
    | succ n =>
      simp only [chainFrom, if_neg hx, List.cons.injEq, true_and]
      exact ih hrest (by simpa using hlen)

theorem rowChain_eq_of_isChain {M : SparseMat} {r : Nat} {l : List Nat}
    (h : LinkChain M (M.row r) l) (hlen : l.length ≤ M.nnz) :
    rowChain M r = l :=
  chainFrom_eq_of_isChain h hlen

theorem mwLoop_succ (M : SparseMat) (fuel : Nat) (s : MW) :
    mwLoop M (fuel+1) s =
      if (mwBody M s).i ≠ 0 ∧ (mwBody M s).j ≠ 0
        then mwLoop M fuel (mwBody M s) else mwBody M s := rfl

theorem valInRow_cons (M : SparseMat) (x : Nat) (xs : List Nat) (k : Nat) :
    valInRow M (x :: xs) k = if M.col x = k then M.val x else valInRow M xs k := by
  by_cases h : M.col x = k
  · rw [valInRow, List.find?_cons_of_pos _ (by simpa using h), if_pos h]
  · rw [valInRow, List.find?_cons_of_neg _ (by simpa using h), if_neg h]
    rfl

theorem commonCols_nil_left (M : SparseMat) (lb : List Nat) :
    commonCols M [] lb = [] := rfl

theorem commonCols_nil_right (M : SparseMat) (la : List Nat) :
    commonCols M la [] = [] := by
  simp [commonCols]

theorem commonCols_cons_left (M : SparseMat) (a : Nat) (la lb : List Nat) :
    commonCols M (a :: la) lb =
      if M.col a ∈ lb.map M.col then M.col a :: commonCols M la lb
        else commonCols M la lb := by
  unfold commonCols
  rw [List.map_cons, List.filter_cons]
  by_cases h : M.col a ∈ lb.map M.col
  · rw [if_pos (by simpa using h), if_pos h]
  · rw [if_neg (by simpa using h), if_neg h]

theorem mem_commonCols {M : SparseMat} {la lb : List Nat} {k : Nat}
    (h : k ∈ commonCols M la lb) : k ∈ la.map M.col ∧ k ∈ lb.map M.col := by
  unfold commonCols at h
  have h1 := List.mem_of_mem_filter h
  have h2 := List.of_mem_filter h
  exact ⟨h1, by simpa using h2⟩

theorem matchSum_nil_left (M : SparseMat) (lb : List Nat) :
    matchSum M [] lb = 0 := rfl

theorem matchSum_nil_right (M : SparseMat) (la : List Nat) :
    matchSum M la [] = 0 := by
  simp [matchSum, commonCols_nil_right]

theorem matchSum_cons_left {M : SparseMat} {a : Nat} {la lb : List Nat}
    (h : M.col a ∉ lb.map M.col) :
    matchSum M (a :: la) lb = matchSum M la lb := by
  unfold matchSum
  rw [commonCols_cons_left, if_neg h]
  congr 1
  apply List.map_congr_left
  intro k hk
  have hkb := (mem_commonCols hk).2
  have : M.col a ≠ k := fun he => h (he ▸ hkb)
  rw [valInRow_cons, if_neg this]

theorem matchSum_cons_right {M : SparseMat} {la : List Nat} {b : Nat} {lb : List Nat}
    (h : M.col b ∉ la.map M.col) :
    matchSum M la (b :: lb) = matchSum M la lb := by
  unfold matchSum
  have hcc : commonCols M la (b :: lb) = commonCols M la lb := by
    unfold commonCols
    apply List.filter_congr
    intro k hk
    have : k ≠ M.col b := fun he => h (he ▸ hk)
    simp [this]
  rw [hcc]
  congr 1
  apply List.map_congr_left
  intro k hk
  have hka := (mem_commonCols hk).1
  have : M.col b ≠ k := fun he => h (he ▸ hka)
  rw [valInRow_cons, if_neg this]

theorem matchSum_cons_both {M : SparseMat} {a b : Nat} {la lb : List Nat}
    (hab : M.col a = M.col b)
    (ha : M.col a ∉ la.map M.col) (hb : M.col b ∉ lb.map M.col) :
    matchSum M (a :: la) (b :: lb) = M.val a * M.val b + matchSum M la lb := by
  unfold matchSum
  have hcc : commonCols M (a :: la) (b :: lb) = M.col a :: commonCols M la lb := by
    rw [commonCols_cons_left, if_pos (by simp [hab])]
    congr 1
    unfold commonCols
    apply List.filter_congr
    intro k hk
    have : k ≠ M.col b := fun he => ha (by rw [hab, ← he]; exact hk)
    simp [this]
  rw [hcc, List.map_cons, List.sum_cons]
  congr 1
  · rw [valInRow_cons, if_pos rfl, valInRow_cons, if_pos hab.symm]
  · congr 1
    apply List.map_congr_left
    intro k hk
    obtain ⟨hka, hkb⟩ := mem_commonCols hk
    have h1 : M.col a ≠ k := fun he => ha (he ▸ hka)
    have h2 : M.col b ≠ k := fun he => hb (he ▸ hkb)
    rw [valInRow_cons, if_neg h1, valInRow_cons, if_neg h2]

theorem sorted_head_notMem {M : SparseMat} {x : Nat} {xs : List Nat}
    (h : ((x :: xs).map M.col).Chain' (· < ·)) : M.col x ∉ xs.map M.col := by
  rw [List.map_cons, List.chain'_iff_pairwise, List.pairwise_cons] at h
  intro hmem
  exact absurd (h.1 _ hmem) (lt_irrefl _)

theorem sorted_head_lt {M : SparseMat} {x : Nat} {xs : List Nat}
    (h : ((x :: xs).map M.col).Chain' (· < ·)) :
    ∀ k ∈ xs.map M.col, M.col x < k := by
  rw [List.map_cons, List.chain'_iff_pairwise, List.pairwise_cons] at h
  exact h.1

theorem sorted_cols_tail {M : SparseMat} {x : Nat} {xs : List Nat}
    (h : ((x :: xs).map M.col).Chain' (· < ·)) :
    (xs.map M.col).Chain' (· < ·) := by
  rw [List.map_cons] at h
  exact h.tail

theorem cols_le_of_last {M : SparseMat} {c : Nat} :
    ∀ {l : List Nat}, ((l.map M.col).Chain' (· < ·)) →
      (l.map M.col).getLast? = some c → ∀ s ∈ l, M.col s ≤ c := by
  intro l
  induction l with
  | nil => intro _ _ s hs; cases hs
  | cons x xs ih =>
    intro hs hl s hmem
    cases xs with
    | nil =>
      simp at hl
      rcases List.mem_singleton.mp hmem with rfl
      simp [hl]
    | cons y ys =>
      rw [List.map_cons, List.map_cons, List.getLast?_cons_cons] at hl
      rcases List.mem_cons.mp hmem with rfl | hmem'
      · have hxy : M.col s < M.col y := sorted_head_lt hs _ (by simp)
        have hy : M.col y ≤ c := ih (sorted_cols_tail hs) (by simpa using hl) y (by simp)
        exact le_of_lt (lt_of_lt_of_le hxy hy)
      · exact ih (sorted_cols_tail hs) (by simpa using hl) s hmem'

theorem getLastD_cons_of_ne_nil {l : List Nat} (b : Nat) (h : l ≠ []) :
    (b :: l).getLastD 0 = l.getLastD 0 := by
  cases l with
  | nil => exact absurd rfl h
  | cons x xs => simp [List.getLastD]

theorem linkChain_cons {M : SparseMat} {x : Nat} {xs : List Nat}
    (h2 : x ≠ 0) (h3 : 0 ≤ M.list x) (h4 : IsChainSeg M (M.list x).toNat xs 0) :
    LinkChain M x (x :: xs) :=
  (isChainSeg_cons M x x 0 xs).mpr ⟨rfl, h2, h3, h4⟩

theorem mwLoop_sum (M : SparseMat) :
    ∀ (N : Nat) {la lb : List Nat} {a b fuel : Nat} {S ls : ℚ} {io jo : Nat},
      la.length + lb.length ≤ N →
      la ≠ [] → lb ≠ [] →
      LinkChain M a la → LinkChain M b lb →
      ((la.map M.col).Chain' (· < ·)) → ((lb.map M.col).Chain' (· < ·)) →
      la.length + lb.length ≤ fuel →
      (mwLoop M fuel { i := a, j := b, iold := io, jold := jo, sum := S, lsum := ls }).sum
        = S + matchSum M la lb := by
  intro N
  induction N with
  | zero =>
    intro la lb a b fuel S ls io jo hN hla _ _ _ _ _ _
    cases la with
    | nil => exact absurd rfl hla
    | cons x xs => simp at hN
  | succ N ih =>
    intro la lb a b fuel S ls io jo hN hla hlb hca hcb hsa hsb hfuel
    cases la with
    | nil => exact absurd rfl hla
    | cons aa la' =>
    cases lb with
    | nil => exact absurd rfl hlb
    | cons bb lb' =>
    obtain ⟨rfl, ha0, hapos, hra⟩ := hca
    obtain ⟨rfl, hb0, hbpos, hrb⟩ := hcb
    cases fuel with
    | zero => simp at hfuel
    | succ f =>
    rw [mwLoop_succ]
    rcases lt_trichotomy (M.col a) (M.col b) with hlt | heq | hgt
    · -- i advances alone
      have hbody : mwBody M { i := a, j := b, iold := io, jold := jo, sum := S, lsum := ls }
          = { i := (M.list a).toNat, j := b, iold := a, jold := b, sum := S, lsum := 0 } := by
        simp [mwBody, hlt, ne_of_lt hlt]
      rw [hbody]
      have hnotb : M.col a ∉ (b :: lb').map M.col := by
        intro hmem
        rw [List.map_cons] at hmem
        rcases List.mem_cons.mp hmem with he | hmem'
        · exact absurd he (ne_of_lt hlt)
        · exact absurd hlt (not_lt_of_lt (sorted_head_lt hsb _ hmem'))
      cases la' with
      | nil =>
        have hz : (M.list a).toNat = 0 := hra
        rw [if_neg (by simp [hz])]
        rw [matchSum_cons_left hnotb, matchSum_nil_left]
        ring
      | cons c1 cs =>
        have hc1 : (M.list a).toNat = c1 := hra.1
        have hc1ne : c1 ≠ 0 := hra.2.1
        rw [if_pos (by exact ⟨by simp [hc1, hc1ne], hb0⟩)]
        rw [ih (by simp at hN ⊢; omega) (by simp) hlb hra (linkChain_cons hb0 hbpos hrb)
          (sorted_cols_tail hsa) hsb (by simp at hfuel ⊢; omega)]
        rw [matchSum_cons_left hnotb]
    · -- columns match
      have hbody : mwBody M { i := a, j := b, iold := io, jold := jo, sum := S, lsum := ls }
          = { i := (M.list a).toNat, j := (M.list b).toNat, iold := a, jold := b,
              sum := S + M.val a * M.val b, lsum := M.val a * M.val b } := by
        simp [mwBody, heq]
      rw [hbody]
      have hms : matchSum M (a :: la') (b :: lb')
          = M.val a * M.val b + matchSum M la' lb' :=
        matchSum_cons_both heq (sorted_head_notMem hsa) (sorted_head_notMem hsb)
      cases la' with
      | nil =>
        have hz : (M.list a).toNat = 0 := hra
        rw [if_neg (by simp [hz])]
        rw [hms, matchSum_nil_left]
        ring
      | cons c1 cs =>
        cases lb' with
        | nil =>
          have hz : (M.list b).toNat = 0 := hrb
          rw [if_neg (by simp [hz])]
          rw [hms, matchSum_nil_right]
          ring
        | cons d1 ds =>
          have hc1 : (M.list a).toNat = c1 := hra.1
          have hd1 : (M.list b).toNat = d1 := hrb.1
          rw [if_pos (by exact ⟨by simp [hc1, hra.2.1], by simp [hd1, hrb.2.1]⟩)]
          rw [ih (by simp at hN ⊢; omega) (by simp) (by simp) hra
            hrb (sorted_cols_tail hsa) (sorted_cols_tail hsb)
            (by simp at hfuel ⊢; omega)]
          rw [hms]
          ring
    · -- j advances alone
      have hbody : mwBody M { i := a, j := b, iold := io, jold := jo, sum := S, lsum := ls }
          = { i := a, j := (M.list b).toNat, iold := a, jold := b, sum := S, lsum := 0 } := by
        simp [mwBody, not_lt_of_lt hgt, (ne_of_lt hgt).symm]
      rw [hbody]
      have hnota : M.col b ∉ (a :: la').map M.col := by
        intro hmem
        rw [List.map_cons] at hmem
        rcases List.mem_cons.mp hmem with he | hmem'
        · exact absurd he (ne_of_lt hgt)
        · exact absurd hgt (not_lt_of_lt (sorted_head_lt hsa _ hmem'))
      cases lb' with
      | nil =>
        have hz : (M.list b).toNat = 0 := hrb
        rw [if_neg (by simp [hz])]
        rw [matchSum_cons_right hnota, matchSum_nil_right]
        ring
      | cons d1 ds =>
        have hd1 : (M.list b).toNat = d1 := hrb.1
        rw [if_pos (by exact ⟨ha0, by simp [hd1, hrb.2.1]⟩)]
        rw [ih (by simp at hN ⊢; omega) (by simp) (by simp) (linkChain_cons ha0 hapos hra)
          hrb hsa (sorted_cols_tail hsb) (by simp at hfuel ⊢; omega)]
        rw [matchSum_cons_right hnota]

theorem mwLoop_last (M : SparseMat) :
    ∀ (N : Nat) {la lb : List Nat} {a b fuel : Nat} {S ls : ℚ} {io jo : Nat} {c : Nat},
      la.length + lb.length ≤ N →
      la ≠ [] → lb ≠ [] →
      LinkChain M a la → LinkChain M b lb →
      ((la.map M.col).Chain' (· < ·)) → ((lb.map M.col).Chain' (· < ·)) →
      c ∈ la.map M.col → (lb.map M.col).getLast? = some c →
      la.length + lb.length ≤ fuel →
      (mwLoop M fuel { i := a, j := b, iold := io, jold := jo, sum := S, lsum := ls }).lsum
          = valInRow M la c * M.val (lb.getLastD 0) ∧
        (mwLoop M fuel { i := a, j := b, iold := io, jold := jo, sum := S, lsum := ls }).jold
          = lb.getLastD 0 := by
  intro N
  induction N with
  | zero =>
    intro la lb a b fuel S ls io jo c hN hla _ _ _ _ _ _ _ _
    cases la with
    | nil => exact absurd rfl hla
    | cons x xs => simp at hN
  | succ N ih =>
    intro la lb a b fuel S ls io jo c hN hla hlb hca hcb hsa hsb hcmem hlast hfuel
    cases la with
    | nil => exact absurd rfl hla
    | cons aa la' =>
    cases lb with
    | nil => exact absurd rfl hlb
    | cons bb lb' =>
    obtain ⟨rfl, ha0, hapos, hra⟩ := hca
    obtain ⟨rfl, hb0, hbpos, hrb⟩ := hcb
    cases fuel with
    | zero => simp at hfuel
    | succ f =>
    have hble : M.col b ≤ c := cols_le_of_last hsb hlast b (by simp)
    rw [mwLoop_succ]
    rcases lt_trichotomy (M.col a) (M.col b) with hlt | heq | hgt
    · -- i advances alone
      have hbody : mwBody M { i := a, j := b, iold := io, jold := jo, sum := S, lsum := ls }
          = { i := (M.list a).toNat, j := b, iold := a, jold := b, sum := S, lsum := 0 } := by
        simp [mwBody, hlt, ne_of_lt hlt]
      rw [hbody]
      have hane : M.col a ≠ c := ne_of_lt (lt_of_lt_of_le hlt hble)
      have hmem' : c ∈ la'.map M.col := by
        rw [List.map_cons] at hcmem
        rcases List.mem_cons.mp hcmem with he | h
        · exact absurd he.symm hane
        · exact h
      cases la' with
      | nil => simp at hmem'
      | cons c1 cs =>
        rw [if_pos (by exact ⟨by simp [hra.1, hra.2.1], hb0⟩)]
        obtain ⟨ih1, ih2⟩ := @ih (c1 :: cs) (b :: lb') ((M.list a).toNat) b f S 0 a b c
          (by simp at hN ⊢; omega) (by simp) hlb hra (linkChain_cons hb0 hbpos hrb)
          (sorted_cols_tail hsa) hsb hmem' hlast (by simp at hfuel ⊢; omega)
        refine ⟨?_, ih2⟩
        rw [valInRow_cons, if_neg hane]
        exact ih1
    · -- columns match
      have hbody : mwBody M { i := a, j := b, iold := io, jold := jo, sum := S, lsum := ls }
          = { i := (M.list a).toNat, j := (M.list b).toNat, iold := a, jold := b,
              sum := S + M.val a * M.val b, lsum := M.val a * M.val b } := by
        simp [mwBody, heq]
      rw [hbody]
      by_cases hceq : M.col a = c
      · -- terminal match: the diagonal of row c is reached and the walk stops
        cases lb' with
        | cons d1 ds =>
          exfalso
          have hd1le : M.col d1 ≤ c := cols_le_of_last hsb hlast d1 (by simp)
          have : M.col b < M.col d1 := sorted_head_lt hsb _ (by simp)
          rw [heq] at hceq
          omega
        | nil =>
          have hz : (M.list b).toNat = 0 := hrb
          rw [if_neg (by simp [hz])]
          constructor
          · rw [valInRow_cons, if_pos hceq]
            simp [List.getLastD]
          · simp [List.getLastD]
      · -- interior match: both lists continue
        have hmem' : c ∈ la'.map M.col := by
          rw [List.map_cons] at hcmem
          rcases List.mem_cons.mp hcmem with he | h
          · exact absurd he.symm hceq
          · exact h
        cases la' with
        | nil => simp at hmem'
        | cons c1 cs =>
        cases lb' with
        | nil =>
          exfalso
          simp at hlast
          exact absurd hlast (heq ▸ hceq)
        | cons d1 ds =>
          rw [if_pos (by exact ⟨by simp [hra.1, hra.2.1], by simp [hrb.1, hrb.2.1]⟩)]
          obtain ⟨ih1, ih2⟩ := @ih (c1 :: cs) (d1 :: ds) ((M.list a).toNat)
            ((M.list b).toNat) f (S + M.val a * M.val b) (M.val a * M.val b) a b c
            (by simp at hN ⊢; omega) (by simp) (by simp) hra hrb
            (sorted_cols_tail hsa) (sorted_cols_tail hsb) hmem'
            (by rw [List.map_cons, List.map_cons, List.getLast?_cons_cons] at hlast
                simpa using hlast)
            (by simp at hfuel ⊢; omega)
          refine ⟨?_, ?_⟩
          · rw [valInRow_cons, if_neg hceq, getLastD_cons_of_ne_nil _ (by simp)]
            exact ih1
          · rw [getLastD_cons_of_ne_nil _ (by simp)]
            exact ih2
    · -- j advances alone
      have hbody : mwBody M { i := a, j := b, iold := io, jold := jo, sum := S, lsum := ls }
          = { i := a, j := (M.list b).toNat, iold := a, jold := b, sum := S, lsum := 0 } := by
        simp [mwBody, not_lt_of_lt hgt, (ne_of_lt hgt).symm]
      rw [hbody]
      have hbne : M.col b ≠ c := by
        intro he
        rw [List.map_cons] at hcmem
        rcases List.mem_cons.mp hcmem with h | h
        · omega
        · have := sorted_head_lt hsa _ h
          omega
      cases lb' with
      | nil =>
        exfalso
        simp at hlast
        exact absurd hlast hbne
      | cons d1 ds =>
        rw [if_pos (by exact ⟨ha0, by simp [hrb.1, hrb.2.1]⟩)]
        obtain ⟨ih1, ih2⟩ := @ih (a :: la') (d1 :: ds) a ((M.list b).toNat) f S 0 a b c
          (by simp at hN ⊢; omega) (by simp) (by simp)
          (linkChain_cons ha0 hapos hra) hrb hsa (sorted_cols_tail hsb) hcmem
          (by rw [List.map_cons, List.map_cons, List.getLast?_cons_cons] at hlast
              simpa using hlast)
          (by simp at hfuel ⊢; omega)
        refine ⟨?_, ?_⟩
        · rw [getLastD_cons_of_ne_nil _ (by simp)]
          exact ih1
        · rw [getLastD_cons_of_ne_nil _ (by simp)]
          exact ih2

theorem goodRow_cols_nodup {M : SparseMat} {r : Nat} {l : List Nat}
    (h : GoodRow M r l) : (l.map M.col).Nodup :=
  (List.chain'_iff_pairwise.mp h.2.2.1).imp ne_of_lt

theorem goodRow_nodup {M : SparseMat} {r : Nat} {l : List Nat}
    (h : GoodRow M r l) : l.Nodup :=
  List.Nodup.of_map M.col (goodRow_cols_nodup h)

theorem goodRow_length_le {M : SparseMat} {r : Nat} {l : List Nat}
    (h : GoodRow M r l) : l.length ≤ M.nnz := by
  have hnd := goodRow_nodup h
  have hsub : l.toFinset ⊆ Finset.range M.nnz := by
    intro s hs
    exact Finset.mem_range.mpr (h.2.2.2.2.2 s (List.mem_toFinset.mp hs))
  calc l.length = l.toFinset.card := (List.toFinset_card_of_nodup hnd).symm
    _ ≤ (Finset.range M.nnz).card := Finset.card_le_card hsub
    _ = M.nnz := Finset.card_range _

theorem goodRow_col_le {M : SparseMat} {r : Nat} {l : List Nat}
    (h : GoodRow M r l) : ∀ s ∈ l, M.col s ≤ r :=
  cols_le_of_last h.2.2.1 h.2.2.2.1

theorem eq_singleton_of_all_eq {l : List Nat} {c : Nat} (hnd : l.Nodup)
    (hall : ∀ x ∈ l, x = c) (hc : c ∈ l) : l = [c] := by
  cases l with
  | nil => cases hc
  | cons x xs =>
    have hx : x = c := hall x (by simp)
    subst hx
    cases xs with
    | nil => rfl
    | cons y ys =>
      have hy : y = x := hall y (by simp)
      subst hy
      simp at hnd

theorem matchSum_split_last {M : SparseMat} {la lb : List Nat} {c : Nat}
    (hsa : (la.map M.col).Chain' (· < ·))
    (hlb : ∀ k ∈ lb.map M.col, k ≤ c)
    (hca : c ∈ la.map M.col) (hcb : c ∈ lb.map M.col) :
    matchSum M la lb = specSumBelow M la lb c + valInRow M la c * valInRow M lb c := by
  have hnodup : (commonCols M la lb).Nodup := by
    unfold commonCols
    exact ((List.chain'_iff_pairwise.mp hsa).imp ne_of_lt).filter _
  have hmemc : c ∈ commonCols M la lb :=
    List.mem_filter.mpr ⟨hca, by simpa using hcb⟩
  have hsingle : (commonCols M la lb).filter (fun k => !(decide (k < c))) = [c] := by
    apply eq_singleton_of_all_eq (hnodup.filter _)
    · intro x hx
      have hx1 := List.mem_of_mem_filter hx
      have hx2 := List.of_mem_filter hx
      have hxlt : ¬ (x < c) := by simpa using hx2
      have hxle : x ≤ c := hlb x (mem_commonCols hx1).2
      omega
    · exact List.mem_filter.mpr ⟨hmemc, by simp⟩
  have hperm := List.filter_append_perm (fun k => decide (k < c)) (commonCols M la lb)
  unfold matchSum specSumBelow
  rw [← ((hperm.map (fun k => valInRow M la k * valInRow M lb k)).sum_eq),
    List.map_append, List.sum_append, hsingle]
  simp

theorem valInRow_last_of_sorted {M : SparseMat} {c : Nat} :
    ∀ {lb : List Nat}, ((lb.map M.col).Chain' (· < ·)) →
      (lb.map M.col).getLast? = some c → valInRow M lb c = M.val (lb.getLastD 0) := by
  intro lb
  induction lb with
  | nil => intro _ h; simp at h
  | cons x xs ih =>
    intro hs hl
    cases xs with
    | nil =>
      simp at hl
      rw [valInRow_cons, if_pos hl]
      simp [List.getLastD]
    | cons y ys =>
      rw [List.map_cons, List.map_cons, List.getLast?_cons_cons] at hl
      have hylec : M.col y ≤ c :=
        cols_le_of_last (sorted_cols_tail hs) (by simpa using hl) y (by simp)
      have hxy : M.col x < M.col y := sorted_head_lt hs _ (by simp)
      rw [valInRow_cons, if_neg (by omega), getLastD_cons_of_ne_nil _ (by simp)]
      exact ih (sorted_cols_tail hs) (by simpa using hl)

/-- C1: for every live slot `e` of a factor satisfying the invariants, with
`r` the row and `c = col[e]` the column of `e`, one sweep writes
`val[e] = sqrt(A[r,c] - sum)` when `r = c` and
`val[e] = (A[r,c] - sum) / val[jold]` otherwise, where `sum` is the
merge-walk product over common columns `k < min r c` (the terminal matched
term excluded) and `jold` is the diagonal slot of row `c`, i.e. the last
entry of row `c`'s chain. -/
theorem sweep_writes_ic_update (A : CSR) (zsqrt : ℚ → ℚ) (M : SparseMat)
    (r e : Nat) (hinv : InvMat M) (hr : r < M.num_rows) (he : e ∈ rowChain M r) :
    (magma_zmdynamicic_sweep A zsqrt M).val e =
      (if r = M.col e
        then zsqrt (lookupA A r (M.col e) -
          specSumBelow M (rowChain M r) (rowChain M (M.col e)) (min r (M.col e)))
        else (lookupA A r (M.col e) -
            specSumBelow M (rowChain M r) (rowChain M (M.col e)) (min r (M.col e)))
          / M.val (lastSlot M (M.col e))) := by
  have hgr := hinv r hr
  have hcle : M.col e ≤ r := goodRow_col_le hgr e he
  have hc : M.col e < M.num_rows := lt_of_le_of_lt hcle hr
  have hgc := hinv (M.col e) hc
  have hridx : M.rowidx e = r := hgr.2.2.2.2.1 e he
  have hbound : e < M.nnz := hgr.2.2.2.2.2 e he
  have hlive : M.list e ≠ -1 := by
    have := hgr.1.mem_ne_zero e he
    omega
  have hlena : (rowChain M r).length ≤ M.nnz := goodRow_length_le hgr
  have hlenb : (rowChain M (M.col e)).length ≤ M.nnz := goodRow_length_le hgc
  have hcmem : M.col e ∈ (rowChain M r).map M.col := List.mem_map_of_mem M.col he
  have hfuel : (rowChain M r).length + (rowChain M (M.col e)).length ≤ 2 * M.nnz := by
    omega
  have hsum := @mwLoop_sum M ((rowChain M r).length + (rowChain M (M.col e)).length)
    (rowChain M r) (rowChain M (M.col e)) (M.row r) (M.row (M.col e)) (2 * M.nnz)
    0 0 (M.row r) (M.row (M.col e))
    (le_refl _) hgr.2.1 hgc.2.1 hgr.1 hgc.1 hgr.2.2.1 hgc.2.2.1 hfuel
  have hlast := @mwLoop_last M ((rowChain M r).length + (rowChain M (M.col e)).length)
    (rowChain M r) (rowChain M (M.col e)) (M.row r) (M.row (M.col e)) (2 * M.nnz)
    0 0 (M.row r) (M.row (M.col e)) (M.col e)
    (le_refl _) hgr.2.1 hgc.2.1 hgr.1 hgc.1 hgr.2.2.1 hgc.2.2.1 hcmem
    hgc.2.2.2.1 hfuel
  have hvlast : valInRow M (rowChain M (M.col e)) (M.col e)
      = M.val ((rowChain M (M.col e)).getLastD 0) :=
    valInRow_last_of_sorted hgc.2.2.1 hgc.2.2.2.1
  have hsplit := matchSum_split_last hgr.2.2.1
    (fun k hk => by
      obtain ⟨s, hs, rfl⟩ := List.mem_map.mp hk
      exact goodRow_col_le hgc s hs)
    hcmem (List.mem_of_mem_getLast? hgc.2.2.2.1)
  have hes : (mwLoop M (2 * M.nnz)
        { i := M.row r, j := M.row (M.col e), iold := M.row r,
          jold := M.row (M.col e), sum := 0, lsum := 0 }).sum
      - (mwLoop M (2 * M.nnz)
        { i := M.row r, j := M.row (M.col e), iold := M.row r,
          jold := M.row (M.col e), sum := 0, lsum := 0 }).lsum
      = specSumBelow M (rowChain M r) (rowChain M (M.col e)) (min r (M.col e)) := by
    rw [hsum, hlast.1, ← hvlast, hsplit, min_eq_right hcle]
    ring
  have hstep : (magma_zmdynamicic_sweep A zsqrt M).val e = sweepVal A zsqrt M e := by
    unfold magma_zmdynamicic_sweep
    exact if_pos ⟨hbound, hlive⟩
  rw [hstep]
  unfold sweepVal
  rw [hridx]
  dsimp only
  rw [hes, hlast.2]
  rfl

theorem residualVal_eq (A : CSR) (M : SparseMat) (rk ck : Nat)
    (hgr : GoodRow M rk (rowChain M rk)) (hgc : GoodRow M ck (rowChain M ck)) :
    residualVal A M rk ck =
      lookupA A rk ck - matchSum M (rowChain M rk) (rowChain M ck) := by
  have hfuel : (rowChain M rk).length + (rowChain M ck).length ≤ 2 * M.nnz := by
    have h1 := goodRow_length_le hgr
    have h2 := goodRow_length_le hgc
    omega
  have hsum := @mwLoop_sum M ((rowChain M rk).length + (rowChain M ck).length)
    (rowChain M rk) (rowChain M ck) (M.row rk) (M.row ck) (2 * M.nnz)
    0 0 (M.row rk) (M.row ck)
    (le_refl _) hgr.2.1 hgc.2.1 hgr.1 hgc.1 hgr.2.2.1 hgc.2.2.1 hfuel
  unfold residualVal
  dsimp only
  rw [hsum, zero_add]

/-- C7 counterexample: for the concrete factor `Wfac` and the candidate
(2,1), the residual kernel stores the signed value -21, not the magnitude
21 of `(A - L Lᵀ)[2,1]` that the claim asserts. -/
theorem residual_magnitude_cex :
    (magma_zmdynamicic_residuals Acsr0 Wfac LnewC7).val 0 = -21 ∧
    (magma_zmdynamicic_residuals Acsr0 Wfac LnewC7).val 0 ≠
      |lookupA Acsr0 (LnewC7.rowidx 0) (LnewC7.col 0) -
        matchSum Wfac (rowChain Wfac (LnewC7.rowidx 0)) (rowChain Wfac (LnewC7.col 0))| := by
  have h1 : (magma_zmdynamicic_residuals Acsr0 Wfac LnewC7).val 0
      = residualVal Acsr0 Wfac 2 1 := rfl
  have h2 : residualVal Acsr0 Wfac 2 1
      = lookupA Acsr0 2 1 - matchSum Wfac (rowChain Wfac 2) (rowChain Wfac 1) :=
    residualVal_eq Acsr0 Wfac 2 1 (by decide) (by decide)
  have h3 : lookupA Acsr0 2 1 = 0 := rfl
  have h4 : matchSum Wfac (rowChain Wfac 2) (rowChain Wfac 1) = 21 := by
    rw [show rowChain Wfac 2 = [4, 5] from by decide,
        show rowChain Wfac 1 = [2, 3] from by decide]
    unfold matchSum
    rw [show commonCols Wfac [4, 5] [2, 3] = [0] from by decide]
    simp only [List.map_cons, List.map_nil, List.sum_cons, List.sum_nil]
    rw [show valInRow Wfac [4, 5] 0 = 7 from rfl,
        show valInRow Wfac [2, 3] 0 = 3 from rfl]
    norm_num
  have hrc : (LnewC7.rowidx 0) = 2 := rfl
  have hcc : (LnewC7.col 0) = 1 := rfl
  rw [h1, h2, h3, h4, hrc, hcc, h3, h4]
  norm_num

/-- C7 amended: after residual evaluation, for every candidate entry `e`,
the stored value is the signed residual `(A - L Lᵀ)[row,col]`, i.e.
`A[row,col]` minus the merge-walk sum over columns present in both row
chains (its magnitude is the residual magnitude, but the sign is kept). -/
theorem residual_value_signed (A : CSR) (M : SparseMat) (Ln : Cand)
    (hinv : InvMat M) (e : Nat) (he : e < Ln.nnz)
    (hrow : Ln.rowidx e < M.num_rows) (hcol : Ln.col e < M.num_rows) :
    (magma_zmdynamicic_residuals A M Ln).val e =
      lookupA A (Ln.rowidx e) (Ln.col e)
        - matchSum M (rowChain M (Ln.rowidx e)) (rowChain M (Ln.col e)) := by
  have h1 : (magma_zmdynamicic_residuals A M Ln).val e
      = residualVal A M (Ln.rowidx e) (Ln.col e) := by
    unfold magma_zmdynamicic_residuals
    exact if_pos he
  rw [h1]
  exact residualVal_eq A M _ _ (hinv _ hrow) (hinv _ hcol)

/-- C7 witness: the amended theorem applied to the concrete factor and
candidate list. -/
theorem residual_value_signed_witness :
    (magma_zmdynamicic_residuals Acsr0 Wfac LnewC7).val 0 =
      lookupA Acsr0 (LnewC7.rowidx 0) (LnewC7.col 0)
        - matchSum Wfac (rowChain Wfac (LnewC7.rowidx 0)) (rowChain Wfac (LnewC7.col 0)) :=
  residual_value_signed Acsr0 Wfac LnewC7 (by decide) 0 (by decide) (by decide) (by decide)

/-- C1 witness: the sweep theorem applied to slot 4 (row 2, column 0) of the
concrete factor. -/
theorem sweep_writes_ic_update_witness :
    (magma_zmdynamicic_sweep Acsr0 id Wfac).val 4 =
      (if 2 = Wfac.col 4
        then id (lookupA Acsr0 2 (Wfac.col 4) -
          specSumBelow Wfac (rowChain Wfac 2) (rowChain Wfac (Wfac.col 4)) (min 2 (Wfac.col 4)))
        else (lookupA Acsr0 2 (Wfac.col 4) -
            specSumBelow Wfac (rowChain Wfac 2) (rowChain Wfac (Wfac.col 4)) (min 2 (Wfac.col 4)))
          / Wfac.val (lastSlot Wfac (Wfac.col 4))) :=
  sweep_writes_ic_update Acsr0 id Wfac 2 4 (by decide) (by decide) (by decide)

theorem scanAux_eq (M : SparseMat) (ce : Nat) :
    ∀ (fuel check : Nat),
      scanAux M ce fuel check = (chainFrom M fuel check).any (fun s => M.col s = ce) := by
  intro fuel
  induction fuel with
  | zero => intro check; rfl
  | succ f ih =>
    intro check
    by_cases h : check = 0
    · simp [scanAux, chainFrom, h]
    · by_cases hc : M.col check = ce
      · simp [scanAux, chainFrom, h, hc]
      · simp [scanAux, chainFrom, h, hc, ih]

/-- C8: every candidate emitted by `magma_zmdynamicic_candidates_n`
satisfies rowidx > col, and the position is absent from the factor at
discovery time: scanning the chain of its row finds no slot with that
column. -/
theorem candidates_lower_and_absent (M : SparseMat) (p : Nat × Nat)
    (hp : p ∈ magma_zmdynamicic_candidates_n M) :
    p.2 < p.1 ∧ ∀ s ∈ rowChain M p.1, M.col s ≠ p.2 := by
  unfold magma_zmdynamicic_candidates_n at hp
  rw [List.mem_flatMap] at hp
  obtain ⟨row, _, hp⟩ := hp
  unfold candRow at hp
  rw [List.mem_flatMap] at hp
  obtain ⟨l1, _, hp⟩ := hp
  by_cases hd : M.col l1 = row
  · rw [if_pos hd] at hp
    cases hp
  · rw [if_neg hd, List.mem_filterMap] at hp
    obtain ⟨l2, _, hp⟩ := hp
    by_cases hge : M.col l1 ≤ M.col l2
    · rw [if_pos hge] at hp
      cases hp
    · rw [if_neg hge] at hp
      by_cases hex : scanExist M (max (M.col l2) (M.col l1)) (min (M.col l1) (M.col l2))
      · rw [if_pos hex] at hp
        cases hp
      · rw [if_neg hex] at hp
        have hp' : p = (max (M.col l2) (M.col l1), min (M.col l1) (M.col l2)) :=
          (Option.some_inj.mp hp).symm
        subst hp'
        have hlt : M.col l2 < M.col l1 := lt_of_not_le hge
        constructor
        · simp only [max_eq_right (le_of_lt hlt), min_eq_right (le_of_lt hlt)]
          exact hlt
        · intro s hs he
          apply hex
          unfold scanExist
          rw [scanAux_eq]
          rw [List.any_eq_true]
          exact ⟨s, hs, by simpa using he⟩

/-- C8 witness: the factor `Wc8` emits the candidate (1,0), for which the
theorem gives rowidx > col and absence from row 1. -/
theorem candidates_lower_and_absent_witness :
    (1, 0) ∈ magma_zmdynamicic_candidates_n Wc8 ∧
      (0 < 1 ∧ ∀ s ∈ rowChain Wc8 1, Wc8.col s ≠ 0) :=
  ⟨by decide, candidates_lower_and_absent Wc8 (1, 0) (by decide)⟩

/-- C9: `magma_zmdynamicilu_set_thrs` returns the `num_rm`-th smallest
magnitude of the factor value array (selected on a scratch copy) and leaves
every field of the factor unchanged. -/
theorem set_thrs_kth_and_frame (num_rm : Nat) (M : SparseMat) :
    (magma_zmdynamicilu_set_thrs num_rm M).1 = kthSmallestMagnitude M num_rm ∧
    (magma_zmdynamicilu_set_thrs num_rm M).2 = M := by
  constructor
  · unfold magma_zmdynamicilu_set_thrs orderstatSmallest kthSmallestMagnitude
    dsimp only
    congr 1
    exact List.mergeSort_eq_insertionSort (· ≤ ·) _
  · rfl

/-- C10: the insertion routine returns status 0 whenever the external
order-statistics call succeeds - including the skipped round
(`num_rm >= LU_new.nnz`, which returns 0 without even calling the selector)
and the truncated round - so the return code cannot distinguish these
outcomes. -/
theorem insert_info_zero (osInfo : Int) (num_rm : Nat) (rmloc : Nat → Nat)
    (Ln : Cand) (M : SparseMat) :
    (osInfo = 0 → (magma_zmdynamicic_insert osInfo num_rm rmloc Ln M).2.2 = 0) ∧
    (Ln.nnz ≤ num_rm → (magma_zmdynamicic_insert osInfo num_rm rmloc Ln M).2.2 = 0) := by
  unfold magma_zmdynamicic_insert
  constructor
  · intro h
    subst h
    by_cases hc : Ln.nnz ≤ num_rm
    · rw [if_pos hc]
    · rw [if_neg hc, if_neg (by simp)]
  · intro h
    rw [if_pos h]

/-- C10 witness: concrete instantiation, one per conjunct. -/
theorem insert_info_zero_witness :
    (magma_zmdynamicic_insert 0 0 (fun _ => 0) LnewC7 Wfac).2.2 = 0 ∧
    (magma_zmdynamicic_insert 7 1 (fun _ => 0) LnewC7 Wfac).2.2 = 0 :=
  ⟨(insert_info_zero 0 0 (fun _ => 0) LnewC7 Wfac).1 rfl,
   (insert_info_zero 7 1 (fun _ => 0) LnewC7 Wfac).2 (by decide)⟩

/-- C2 counterexample: with `num_rm = 1 = LU_new.nnz` and an insertable
candidate at (2,1) (absent from row 2), the insertion routine skips the
round entirely - the factor is returned unchanged with zero insertions -
although the claim asserts the insertion is performed at
`num_rm = LU_new.nnz`. -/
theorem insert_skip_boundary_cex :
    magma_zmdynamicic_insert 0 1 (fun _ => 0) LnewC7 Wfac = (Wfac, 0, 0) ∧
    (∀ s ∈ rowChain Wfac 2, Wfac.col s ≠ 1) := by
  constructor
  · unfold magma_zmdynamicic_insert
    rw [if_pos (by decide)]
  · decide

/-- C2 amended: the insertion routine ranks and inserts candidates exactly
when `num_rm < LU_new.nnz`, and skips the round (factor unchanged, zero
insertions, success status) exactly when `num_rm >= LU_new.nnz`; in
particular at `num_rm = LU_new.nnz` the round is skipped, not performed. -/
theorem insert_skip_iff_amended (osInfo : Int) (num_rm : Nat) (rmloc : Nat → Nat)
    (Ln : Cand) (M : SparseMat) :
    (Ln.nnz ≤ num_rm →
      magma_zmdynamicic_insert osInfo num_rm rmloc Ln M = (M, 0, 0)) ∧
    (num_rm < Ln.nnz → osInfo = 0 →
      magma_zmdynamicic_insert osInfo num_rm rmloc Ln M =
        ((insertLoop (rankCand Ln) num_rm rmloc (rankCand Ln).nnz 0 0 M).1,
         (insertLoop (rankCand Ln) num_rm rmloc (rankCand Ln).nnz 0 0 M).2, 0)) := by
  constructor
  · intro h
    unfold magma_zmdynamicic_insert
    rw [if_pos h]
  · intro h h0
    subst h0
    unfold magma_zmdynamicic_insert
    rw [if_neg (by omega), if_neg (by simp)]

/-- C2 witness: both branches of the amended theorem at concrete inputs. -/
theorem insert_skip_iff_amended_witness :
    magma_zmdynamicic_insert 0 2 (fun _ => 0) LnewC7 Wfac = (Wfac, 0, 0) ∧
    magma_zmdynamicic_insert 0 0 (fun _ => 0) LnewC7 Wfac =
      ((insertLoop (rankCand LnewC7) 0 (fun _ => 0) (rankCand LnewC7).nnz 0 0 Wfac).1,
       (insertLoop (rankCand LnewC7) 0 (fun _ => 0) (rankCand LnewC7).nnz 0 0 Wfac).2, 0) :=
  ⟨(insert_skip_iff_amended 0 2 (fun _ => 0) LnewC7 Wfac).1 (by decide),
   (insert_skip_iff_amended 0 0 (fun _ => 0) LnewC7 Wfac).2 (by decide) rfl⟩

theorem dropLast_append_getLastD {l : List Nat} (h : l ≠ []) :
    l.dropLast ++ [l.getLastD 0] = l := by
  rw [List.getLastD_eq_getLast?, List.getLast?_eq_getLast_of_ne_nil h]
  exact List.dropLast_append_getLast h

theorem getLastD_mem {l : List Nat} (h : l ≠ []) : l.getLastD 0 ∈ l := by
  rw [List.getLastD_eq_getLast?, List.getLast?_eq_getLast_of_ne_nil h, Option.getD_some]
  exact List.getLast_mem h

theorem map_getLast? {f : Nat → Nat} {l : List Nat} (h : l ≠ []) :
    (l.map f).getLast? = some (f (l.getLastD 0)) := by
  conv_lhs => rw [← dropLast_append_getLastD h]
  rw [List.map_append]
  simp [List.getLast?_concat]

theorem getLastD_not_mem_dropLast {l : List Nat} (hnd : l.Nodup) (h : l ≠ []) :
    l.getLastD 0 ∉ l.dropLast := by
  intro hmem
  have := dropLast_append_getLastD h
  rw [← this] at hnd
  rw [List.nodup_append] at hnd
  exact hnd.2.2 hmem (List.mem_singleton_self _)

theorem remList_congr {thrs : ℚ} {v v2 : Nat → ℚ} {l : List Nat}
    (h : ∀ s ∈ l.dropLast, v2 s = v s) :
    remList thrs v2 l = remList thrs v l := by
  unfold remList
  exact List.filter_congr (fun s hs => by rw [h s hs])

theorem keepList_congr {thrs : ℚ} {v v2 : Nat → ℚ} {l : List Nat}
    (h : ∀ s ∈ l.dropLast, v2 s = v s) :
    keepList thrs v2 l = keepList thrs v l := by
  unfold keepList
  exact List.filter_congr (fun s hs => by rw [h s hs])

theorem mem_remList_sub {thrs : ℚ} {v : Nat → ℚ} {l : List Nat} {s : Nat}
    (h : s ∈ remList thrs v l) : s ∈ l.dropLast ∧ |v s| < |thrs| := by
  unfold remList at h
  exact ⟨List.mem_of_mem_filter h, by simpa using List.of_mem_filter h⟩

theorem mem_keepList_sub {thrs : ℚ} {v : Nat → ℚ} {l : List Nat} {s : Nat}
    (h : s ∈ keepList thrs v l) : s ∈ l.dropLast ∧ ¬ |v s| < |thrs| := by
  unfold keepList at h
  exact ⟨List.mem_of_mem_filter h, by simpa using List.of_mem_filter h⟩

theorem mem_remList_of {thrs : ℚ} {v : Nat → ℚ} {l : List Nat} {s : Nat}
    (h1 : s ∈ l.dropLast) (h2 : |v s| < |thrs|) : s ∈ remList thrs v l := by
  unfold remList
  exact List.mem_filter.mpr ⟨h1, by simpa using h2⟩

theorem rmLoop_succ (thrs : ℚ) (r : Nat) (fuel : Nat) (M : SparseMat)
    (rm : List Nat) (lasti i nexti : Nat) :
    rmLoop thrs r (fuel+1) M rm lasti i nexti =
      if nexti = 0 then (M, rm)
      else if |M.val i| < |thrs| then
        (if M.row r = i then
           rmLoop thrs r fuel (rmHeadUpd M r i nexti) (rm ++ [i]) i nexti
             ((rmHeadUpd M r i nexti).list nexti).toNat
         else
           rmLoop thrs r fuel (rmMidUpd M lasti i nexti) (rm ++ [i]) lasti nexti
             ((rmMidUpd M lasti i nexti).list nexti).toNat)
      else rmLoop thrs r fuel M rm i nexti (M.list nexti).toNat := rfl

theorem remList_cons {thrs : ℚ} {v : Nat → ℚ} {i : Nat} {tail : List Nat}
    (h : tail ≠ []) :
    remList thrs v (i :: tail) =
      (if |v i| < |thrs| then [i] else []) ++ remList thrs v tail := by
  unfold remList
  rw [List.dropLast_cons_of_ne_nil h, List.filter_cons]
  by_cases hp : |v i| < |thrs|
  · rw [if_pos (by simpa using hp), if_pos hp]
    rfl
  · rw [if_neg (by simpa using hp), if_neg hp]
    rfl

theorem keepList_cons {thrs : ℚ} {v : Nat → ℚ} {i : Nat} {tail : List Nat}
    (h : tail ≠ []) :
    keepList thrs v (i :: tail) =
      (if |v i| < |thrs| then [] else [i]) ++ keepList thrs v tail := by
  unfold keepList
  rw [List.dropLast_cons_of_ne_nil h, List.filter_cons]
  by_cases hp : |v i| < |thrs|
  · rw [if_pos hp]
    have : (decide ¬|v i| < |thrs|) = false := by simpa using hp
    rw [this]
    rfl
  · rw [if_neg hp]
    have : (decide ¬|v i| < |thrs|) = true := by simpa using hp
    rw [this]
    rfl


theorem rmHeadUpd_val (M : SparseMat) (r i n : Nat) :
    (rmHeadUpd M r i n).val = Function.update M.val i 0 := rfl

theorem rmHeadUpd_list (M : SparseMat) (r i n : Nat) :
    (rmHeadUpd M r i n).list = Function.update M.list i (-1) := rfl

theorem rmHeadUpd_row (M : SparseMat) (r i n : Nat) :
    (rmHeadUpd M r i n).row = Function.update M.row r n := rfl

theorem rmMidUpd_val (M : SparseMat) (lasti i n : Nat) :
    (rmMidUpd M lasti i n).val = Function.update M.val i 0 := rfl

theorem rmMidUpd_list (M : SparseMat) (lasti i n : Nat) :
    (rmMidUpd M lasti i n).list
      = Function.update (Function.update M.list i (-1)) lasti (n : Int) := rfl

theorem rmMidUpd_row (M : SparseMat) (lasti i n : Nat) :
    (rmMidUpd M lasti i n).row = M.row := rfl

theorem rmLoop_spec (thrs : ℚ) (r : Nat) :
    ∀ (rest : List Nat) (M : SparseMat) (rm : List Nat) (lasti i fuel : Nat),
      LinkChain M i (i :: rest) →
      (i :: rest).Nodup →
      M.row r ∉ rest →
      rest.length ≤ fuel →
      (M.row r = i ∨
        (M.row r ≠ i ∧ lasti ≠ 0 ∧ lasti ∉ i :: rest ∧ M.list lasti = (i : Int))) →
      RmOut thrs r M rm lasti i (i :: rest)
        (rmLoop thrs r fuel M rm lasti i (M.list i).toNat) := by
  intro rest
  induction rest with
  | nil =>
    intro M rm lasti i fuel hch hnd hrow hfuel hcase
    obtain ⟨_, hi0, hipos, hrest⟩ := hch
    have hz : (M.list i).toNat = 0 := hrest
    have hres : rmLoop thrs r fuel M rm lasti i (M.list i).toNat = (M, rm) := by
      cases fuel with
      | zero => rfl
      | succ f => rw [hz, rmLoop_succ, if_pos rfl]
    rw [hres]
    have hrem : remList thrs M.val [i] = [] := rfl
    have hkeep : keepList thrs M.val [i] = [] := rfl
    refine ⟨by simp [hrem], rfl, rfl, rfl, rfl, ?_, ?_, ?_, ?_, ?_, ?_⟩
    · intro s
      rw [hrem]
      simp
    · intro s hs
      rw [hrem] at hs
      cases hs
    · intro s _ _
      rfl
    · intro r2 _
      rfl
    · intro hhead
      refine ⟨fun s _ => rfl, ?_⟩
      rw [hkeep]
      have he : ([] ++ [([i] : List Nat).getLastD 0]) = [i] := rfl
      rw [he, hhead]
      exact ⟨rfl, hi0, hipos, hrest⟩
    · intro hne
      rcases hcase with hh | ⟨_, hl0, hlnot, hllist⟩
      · exact absurd hh hne
      · refine ⟨rfl, ?_⟩
        have h1 : 0 ≤ M.list lasti := by rw [hllist]; exact Int.ofNat_nonneg i
        refine ⟨rfl, hl0, h1, ?_⟩
        have h2 : (M.list lasti).toNat = i := by rw [hllist]; rfl
        rw [h2]
        exact ⟨rfl, hi0, hipos, hrest⟩
  | cons n1 rest' ih =>
    intro M rm lasti i fuel hch hnd hrow hfuel hcase
    obtain ⟨_, hi0, hipos, hrest⟩ := hch
    have hn1 : (M.list i).toNat = n1 := hrest.1
    have hlisti : M.list i = (n1 : Int) := by
      rw [← Int.toNat_of_nonneg hipos, hn1]
    have hn10 : n1 ≠ 0 := hrest.2.1
    have hinotin : i ∉ n1 :: rest' := (List.nodup_cons.mp hnd).1
    have hndtail : (n1 :: rest').Nodup := (List.nodup_cons.mp hnd).2
    have hrowne : M.row r ≠ n1 := fun h => hrow (h ▸ List.mem_cons_self _ _)
    have hrow' : M.row r ∉ rest' := fun h => hrow (List.mem_cons_of_mem _ h)
    have hdropc : (i :: n1 :: rest').dropLast = i :: (n1 :: rest').dropLast := by
      rw [List.dropLast_cons_of_ne_nil (by simp)]
    have hlastc : (i :: n1 :: rest').getLastD 0 = (n1 :: rest').getLastD 0 :=
      getLastD_cons_of_ne_nil _ (by simp)
    cases fuel with
    | zero => simp at hfuel
    | succ f =>
    rw [hn1, rmLoop_succ, if_neg hn10]
    by_cases hrm : |M.val i| < |thrs|
    · -- slot i is removed
      rw [if_pos hrm]
      have hremc : remList thrs M.val (i :: n1 :: rest')
          = i :: remList thrs M.val (n1 :: rest') := by
        rw [remList_cons (by simp), if_pos hrm]
        rfl
      have hkeepc : keepList thrs M.val (i :: n1 :: rest')
          = keepList thrs M.val (n1 :: rest') := by
        rw [keepList_cons (by simp), if_pos hrm]
        rfl
      by_cases hhead : M.row r = i
      · -- the removed slot was the row head
        rw [if_pos hhead]
        have hchain2 : LinkChain (rmHeadUpd M r i n1) n1 (n1 :: rest') := by
          rw [isChain_congr (M := M) (n1 :: rest')
            (fun x hx => by
              rw [rmHeadUpd_list]
              exact Function.update_noteq (fun he => hinotin (by rw [← he]; exact hx)) _ _)]
          exact hn1 ▸ hrest
        obtain ⟨ih1, ih2, ih3, ih4, ih5, ih6, ih7, ih8, ih9, ih10, ih11⟩ :=
          ih (rmHeadUpd M r i n1) (rm ++ [i]) i n1 f
            hchain2 hndtail
            (by
              rw [rmHeadUpd_row, Function.update_same]
              exact (List.nodup_cons.mp hndtail).1)
            (by simp at hfuel ⊢; omega)
            (Or.inl (by rw [rmHeadUpd_row, Function.update_same]))
        have hvala : ∀ s ∈ (n1 :: rest').dropLast,
            (rmHeadUpd M r i n1).val s = M.val s := by
          intro s hs
          rw [rmHeadUpd_val]
          exact Function.update_noteq
            (fun he => hinotin (by rw [← he]; exact (List.dropLast_sublist _).subset hs)) _ _
        have hremEq : remList thrs (rmHeadUpd M r i n1).val (n1 :: rest')
            = remList thrs M.val (n1 :: rest') := remList_congr hvala
        have hkeepEq : keepList thrs (rmHeadUpd M r i n1).val (n1 :: rest')
            = keepList thrs M.val (n1 :: rest') := keepList_congr hvala
        have hfr := ih10 (by rw [rmHeadUpd_row, Function.update_same])
        refine ⟨?_, ih2, ih3, ih4, ih5, ?_, ?_, ?_, ?_, ?_, ?_⟩
        · rw [ih1, hremc, hremEq, List.append_assoc]
          rfl
        · intro s
          rw [hremc]
          by_cases hs : s = i
          · subst hs
            rw [if_pos (List.mem_cons_self _ _), ih6 s, hremEq,
              if_neg (fun hmem => hinotin
                ((List.dropLast_sublist _).subset (mem_remList_sub hmem).1)),
              rmHeadUpd_val]
            exact Function.update_same _ _ _
          · rw [ih6 s, hremEq]
            by_cases hs2 : s ∈ remList thrs M.val (n1 :: rest')
            · rw [if_pos hs2, if_pos (List.mem_cons_of_mem _ hs2)]
            · rw [if_neg hs2, if_neg (by
                intro hmem
                rcases List.mem_cons.mp hmem with he | hm
                · exact hs he
                · exact hs2 hm), rmHeadUpd_val]
              exact Function.update_noteq hs _ _
        · intro s hs
          rw [hremc] at hs
          rcases List.mem_cons.mp hs with he | hm
          · subst he
            rw [hfr.1 s (fun hmem => hinotin ((List.dropLast_sublist _).subset hmem)),
              rmHeadUpd_list]
            exact Function.update_same _ _ _
          · exact ih7 s (hremEq ▸ hm)
        · intro s hs _
          rw [hdropc] at hs
          have hsi : s ≠ i := fun he => hs (he ▸ List.mem_cons_self _ _)
          have hs2 : s ∉ (n1 :: rest').dropLast := fun hm => hs (List.mem_cons_of_mem _ hm)
          rw [hfr.1 s hs2, rmHeadUpd_list]
          exact Function.update_noteq hsi _ _
        · intro r2 hr2
          rw [ih9 r2 hr2, rmHeadUpd_row]
          exact Function.update_noteq hr2 _ _
        · intro _
          constructor
          · intro s hs
            rw [hdropc] at hs
            have hsi : s ≠ i := fun he => hs (he ▸ List.mem_cons_self _ _)
            have hs2 : s ∉ (n1 :: rest').dropLast := fun hm => hs (List.mem_cons_of_mem _ hm)
            rw [hfr.1 s hs2, rmHeadUpd_list]
            exact Function.update_noteq hsi _ _
          · rw [hkeepc, hlastc, ← hkeepEq]
            exact hfr.2
        · intro hne
          exact absurd hhead hne
      · -- the removed slot was in the middle: relink from lasti
        rw [if_neg hhead]
        rcases hcase with hh | ⟨_, hl0, hlnot, hllist⟩
        · exact absurd hh hhead
        have hlne : lasti ≠ i := fun he => hlnot (he ▸ List.mem_cons_self _ _)
        have hlnt : lasti ∉ n1 :: rest' := fun hm => hlnot (List.mem_cons_of_mem _ hm)
        have hM2 : ∀ x, x ≠ i → x ≠ lasti → (rmMidUpd M lasti i n1).list x = M.list x := by
          intro x hxi hxl
          rw [rmMidUpd_list, Function.update_noteq hxl, Function.update_noteq hxi]
        have hchain2 : LinkChain (rmMidUpd M lasti i n1) n1 (n1 :: rest') := by
          rw [isChain_congr (M := M) (n1 :: rest')
            (fun x hx => hM2 x (fun he => hinotin (he ▸ hx))
              (fun he => hlnt (he ▸ hx)))]
          exact hn1 ▸ hrest
        obtain ⟨ih1, ih2, ih3, ih4, ih5, ih6, ih7, ih8, ih9, ih10, ih11⟩ :=
          ih (rmMidUpd M lasti i n1) (rm ++ [i]) lasti n1 f
            hchain2 hndtail
            (by rw [rmMidUpd_row]; exact hrow')
            (by simp at hfuel ⊢; omega)
            (Or.inr ⟨(by rw [rmMidUpd_row]; exact hrowne), hl0, hlnt,
              (by rw [rmMidUpd_list]; exact Function.update_same _ _ _)⟩)
        have hvala : ∀ s ∈ (n1 :: rest').dropLast,
            (rmMidUpd M lasti i n1).val s = M.val s := by
          intro s hs
          rw [rmMidUpd_val]
          exact Function.update_noteq
            (fun he => hinotin (by rw [← he]; exact (List.dropLast_sublist _).subset hs)) _ _
        have hremEq : remList thrs (rmMidUpd M lasti i n1).val (n1 :: rest')
            = remList thrs M.val (n1 :: rest') := remList_congr hvala
        have hkeepEq : keepList thrs (rmMidUpd M lasti i n1).val (n1 :: rest')
            = keepList thrs M.val (n1 :: rest') := keepList_congr hvala
        have hrow2 := ih11 (by rw [rmMidUpd_row]; exact hrowne)
        refine ⟨?_, ih2, ih3, ih4, ih5, ?_, ?_, ?_, ?_, ?_, ?_⟩
        · rw [ih1, hremc, hremEq, List.append_assoc]
          rfl
        · intro s
          rw [hremc]
          by_cases hs : s = i
          · subst hs
            rw [if_pos (List.mem_cons_self _ _), ih6 s, hremEq,
              if_neg (fun hmem => hinotin
                ((List.dropLast_sublist _).subset (mem_remList_sub hmem).1)),
              rmMidUpd_val]
            exact Function.update_same _ _ _
          · rw [ih6 s, hremEq]
            by_cases hs2 : s ∈ remList thrs M.val (n1 :: rest')
            · rw [if_pos hs2, if_pos (List.mem_cons_of_mem _ hs2)]
            · rw [if_neg hs2, if_neg (by
                intro hmem
                rcases List.mem_cons.mp hmem with he | hm
                · exact hs he
                · exact hs2 hm), rmMidUpd_val]
              exact Function.update_noteq hs _ _
        · intro s hs
          rw [hremc] at hs
          rcases List.mem_cons.mp hs with he | hm
          · subst he
            rw [ih8 s (fun hmem => hinotin ((List.dropLast_sublist _).subset hmem)) (Ne.symm hlne),
              rmMidUpd_list, Function.update_noteq (Ne.symm hlne), Function.update_same]
          · exact ih7 s (hremEq ▸ hm)
        · intro s hs hsl
          rw [hdropc] at hs
          have hsi : s ≠ i := fun he => hs (he ▸ List.mem_cons_self _ _)
          have hs2 : s ∉ (n1 :: rest').dropLast := fun hm => hs (List.mem_cons_of_mem _ hm)
          rw [ih8 s hs2 hsl]
          exact hM2 s hsi hsl
        · intro r2 hr2
          rw [ih9 r2 hr2, rmMidUpd_row]
        · intro hh
          exact absurd hh hhead
        · intro _
          constructor
          · rw [hrow2.1, rmMidUpd_row]
          · rw [hkeepc, hlastc, ← hkeepEq]
            exact hrow2.2
    · -- slot i is kept: advance with lasti := i
      rw [if_neg hrm]
      have hremc : remList thrs M.val (i :: n1 :: rest')
          = remList thrs M.val (n1 :: rest') := by
        rw [remList_cons (by simp), if_neg hrm]
        rfl
      have hkeepc : keepList thrs M.val (i :: n1 :: rest')
          = i :: keepList thrs M.val (n1 :: rest') := by
        rw [keepList_cons (by simp), if_neg hrm]
        rfl
      obtain ⟨ih1, ih2, ih3, ih4, ih5, ih6, ih7, ih8, ih9, ih10, ih11⟩ :=
        ih M rm i n1 f (hn1 ▸ hrest) hndtail hrow'
          (by simp at hfuel ⊢; omega)
          (Or.inr ⟨hrowne, hi0, hinotin, hlisti⟩)
      have hrow2 := ih11 hrowne
      refine ⟨?_, ih2, ih3, ih4, ih5, ?_, ?_, ?_, ?_, ?_, ?_⟩
      · rw [ih1, hremc]
      · intro s
        rw [hremc]
        exact ih6 s
      · intro s hs
        rw [hremc] at hs
        exact ih7 s hs
      · intro s hs _
        rw [hdropc] at hs
        have hsi : s ≠ i := fun he => hs (he ▸ List.mem_cons_self _ _)
        have hs2 : s ∉ (n1 :: rest').dropLast := fun hm => hs (List.mem_cons_of_mem _ hm)
        exact ih8 s hs2 hsi
      · intro r2 hr2
        exact ih9 r2 hr2
      · intro hhead
        constructor
        · intro s hs
          rw [hdropc] at hs
          have hsi : s ≠ i := fun he => hs (he ▸ List.mem_cons_self _ _)
          have hs2 : s ∉ (n1 :: rest').dropLast := fun hm => hs (List.mem_cons_of_mem _ hm)
          exact ih8 s hs2 hsi
        · rw [hkeepc, hlastc]
          have hrr : (rmLoop thrs r f M rm i n1 (M.list n1).toNat).1.row r = i := by
            rw [hrow2.1]
            exact hhead
          rw [hrr, List.cons_append]
          exact hrow2.2
      · intro hne
        rcases hcase with hh | ⟨_, hl0, hlnot, hllist⟩
        · exact absurd hh hne
        have hlne : lasti ≠ i := fun he => hlnot (he ▸ List.mem_cons_self _ _)
        have hlnt : lasti ∉ n1 :: rest' := fun hm => hlnot (List.mem_cons_of_mem _ hm)
        constructor
        · exact hrow2.1
        · have hll : (rmLoop thrs r f M rm i n1 (M.list n1).toNat).1.list lasti
              = M.list lasti := by
            refine ih8 lasti ?_ hlne
            exact fun hm => hlnt ((List.dropLast_sublist _).subset hm)
          rw [hkeepc, hlastc]
          refine ⟨rfl, hl0, ?_, ?_⟩
          · rw [hll, hllist]
            exact Int.ofNat_nonneg i
          · rw [hll, hllist]
            show IsChainSeg _ i _ 0
            rw [List.cons_append]
            exact hrow2.2

theorem chains_disjoint {M : SparseMat} (hinv : InvMat M) {r1 r2 : Nat}
    (h1 : r1 < M.num_rows) (h2 : r2 < M.num_rows) (hne : r1 ≠ r2) :
    ∀ s ∈ rowChain M r1, s ∉ rowChain M r2 := by
  intro s hs hs2
  have e1 : M.rowidx s = r1 := (hinv r1 h1).2.2.2.2.1 s hs
  have e2 : M.rowidx s = r2 := (hinv r2 h2).2.2.2.2.1 s hs2
  exact hne (e1.symm.trans e2)

theorem mem_newKeep_sub {thrs : ℚ} {M0 : SparseMat} {r s : Nat}
    (hne : rowChain M0 r ≠ []) (h : s ∈ newKeep thrs M0 r) :
    s ∈ rowChain M0 r := by
  unfold newKeep at h
  rcases List.mem_append.mp h with h | h
  · exact (List.dropLast_sublist _).subset (mem_keepList_sub h).1
  · rw [List.mem_singleton.mp h]
    exact getLastD_mem hne

theorem mem_dropLast_of_ne_last {l : List Nat} (hne : l ≠ []) {s : Nat}
    (hs : s ∈ l) (hsl : s ≠ l.getLastD 0) : s ∈ l.dropLast := by
  have hs2 : s ∈ l.dropLast ++ [l.getLastD 0] := by
    rw [dropLast_append_getLastD hne]
    exact hs
  rcases List.mem_append.mp hs2 with h | h
  · exact h
  · exact absurd (List.mem_singleton.mp h) hsl

theorem goodRow_col_last {M : SparseMat} {r : Nat} {l : List Nat}
    (h : GoodRow M r l) : M.col (l.getLastD 0) = r := by
  have h2 := h.2.2.2.1
  rw [map_getLast? h.2.1] at h2
  exact Option.some.inj h2

theorem rmRow_spec (thrs : ℚ) (r : Nat) (M : SparseMat) (rm : List Nat)
    (hg : GoodRow M r (rowChain M r)) :
    RmOut thrs r M rm (M.row r) (M.row r) (rowChain M r) (rmRow thrs r (M, rm)) := by
  have hnd := goodRow_nodup hg
  have hlen := goodRow_length_le hg
  obtain ⟨hch, hne, -, -, -, -⟩ := hg
  obtain ⟨a, rest, hl⟩ : ∃ a rest, rowChain M r = a :: rest := by
    cases h : rowChain M r with
    | nil => exact absurd h hne
    | cons a rest => exact ⟨a, rest, rfl⟩
  rw [hl] at hch hnd hlen
  have ha : M.row r = a := hch.head_eq
  subst ha
  rw [hl]
  exact rmLoop_spec thrs r rest M rm (M.row r) (M.row r) M.nnz hch hnd
    (List.nodup_cons.mp hnd).1
    (by simp at hlen; omega)
    (Or.inl rfl)

theorem rmFold_step (thrs : ℚ) (M0 : SparseMat) (hinv : InvMat M0) (k : Nat)
    (hk : k < M0.num_rows) (p : SparseMat × List Nat)
    (hf : RmFold thrs M0 k p) :
    RmFold thrs M0 (k+1) (rmRow thrs k p) := by
  obtain ⟨f1, f2, f3, f4, f5, f6, f7, f8, f9⟩ := hf
  have hg0 : GoodRow M0 k (rowChain M0 k) := hinv k hk
  have hlen0 : (rowChain M0 k).length ≤ M0.nnz := goodRow_length_le hg0
  have hknd : (rowChain M0 k).Nodup := goodRow_nodup hg0
  have hkne : rowChain M0 k ≠ [] := hg0.2.1
  have hrowk : p.1.row k = M0.row k := f5 k (le_refl k)
  have hlagree : ∀ x ∈ rowChain M0 k, p.1.list x = M0.list x :=
    fun x hx => (f6 k (le_refl k) hk x hx).2
  have hvagree : ∀ x ∈ rowChain M0 k, p.1.val x = M0.val x :=
    fun x hx => (f6 k (le_refl k) hk x hx).1
  have hch : LinkChain p.1 (p.1.row k) (rowChain M0 k) := by
    rw [hrowk, isChain_congr (rowChain M0 k) hlagree]
    exact hg0.1
  have hchEq : rowChain p.1 k = rowChain M0 k :=
    rowChain_eq_of_isChain hch (by rw [f2]; exact hlen0)
  have hgp : GoodRow p.1 k (rowChain p.1 k) := by
    rw [hchEq]
    refine ⟨hch, hkne, ?_, ?_, ?_, ?_⟩
    · rw [f3]; exact hg0.2.2.1
    · rw [f3]; exact hg0.2.2.2.1
    · intro s hs; rw [f4]; exact hg0.2.2.2.2.1 s hs
    · intro s hs; rw [f2]; exact hg0.2.2.2.2.2 s hs
  have hvd : ∀ s ∈ (rowChain M0 k).dropLast, p.1.val s = M0.val s :=
    fun s hs => hvagree s ((List.dropLast_sublist _).subset hs)
  have hremEq : remList thrs p.1.val (rowChain M0 k)
      = remList thrs M0.val (rowChain M0 k) := remList_congr hvd
  have hkeepEq : keepList thrs p.1.val (rowChain M0 k)
      = keepList thrs M0.val (rowChain M0 k) := keepList_congr hvd
  have hout : RmOut thrs k p.1 p.2 (p.1.row k) (p.1.row k) (rowChain p.1 k)
      (rmRow thrs k p) := rmRow_spec thrs k p.1 p.2 hgp
  rw [hchEq] at hout
  obtain ⟨o1, o2, o3, o4, o5, o6, o7, o8, o9, o10, o11⟩ := hout
  rw [hremEq] at o1 o7
  have o6 : ∀ s, (rmRow thrs k p).1.val s
      = if s ∈ remList thrs M0.val (rowChain M0 k) then 0 else p.1.val s := by
    intro s
    rw [o6 s, hremEq]
  have hfr := o10 rfl
  rw [hkeepEq] at hfr
  have hnotk : ∀ s, s ∉ rowChain M0 k → s ∉ remList thrs M0.val (rowChain M0 k) :=
    fun s hs hm => hs ((List.dropLast_sublist _).subset (mem_remList_sub hm).1)
  have hnotk2 : ∀ s, s ∉ rowChain M0 k → s ∉ (rowChain M0 k).dropLast :=
    fun s hs hm => hs ((List.dropLast_sublist _).subset hm)
  refine ⟨o2.trans f1, o3.trans f2, o4.trans f3, o5.trans f4, ?_, ?_, ?_, ?_, ?_⟩
  · intro r2 hr2
    have hne : r2 ≠ k := by omega
    rw [o9 r2 hne]
    exact f5 r2 (by omega)
  · intro r2 hr2 hlt s hs
    have hne : r2 ≠ k := by omega
    have hnotin : s ∉ rowChain M0 k := chains_disjoint hinv hlt hk hne s hs
    constructor
    · rw [o6 s, if_neg (hnotk s hnotin)]
      exact (f6 r2 (by omega) hlt s hs).1
    · rw [hfr.1 s (hnotk2 s hnotin)]
      exact (f6 r2 (by omega) hlt s hs).2
  · intro r2 hr2 hlt
    by_cases hek : r2 = k
    · subst hek
      refine ⟨hfr.2, ?_, ?_⟩
      · intro s hs
        have hsmem : s ∈ rowChain M0 r2 := mem_newKeep_sub hkne hs
        have hnr : s ∉ remList thrs M0.val (rowChain M0 r2) := by
          unfold newKeep at hs
          rcases List.mem_append.mp hs with h | h
          · intro hm
            exact (mem_keepList_sub h).2 (mem_remList_sub hm).2
          · rw [List.mem_singleton.mp h]
            intro hm
            exact getLastD_not_mem_dropLast hknd hkne (mem_remList_sub hm).1
        rw [o6 s, if_neg hnr]
        exact hvagree s hsmem
      · intro s hs
        exact ⟨by rw [o6 s, if_pos hs], o7 s hs⟩
    · have hr2k : r2 < k := by omega
      obtain ⟨g1, g2, g3⟩ := f7 r2 hr2k hlt
      have hnkne : rowChain M0 r2 ≠ [] := (hinv r2 hlt).2.1
      have hdisj2 : ∀ s ∈ rowChain M0 r2, s ∉ rowChain M0 k :=
        chains_disjoint hinv hlt hk hek
      refine ⟨?_, ?_, ?_⟩
      · rw [o9 r2 hek, isChain_congr (newKeep thrs M0 r2)
          (fun x hx => hfr.1 x (hnotk2 x (hdisj2 x (mem_newKeep_sub hnkne hx))))]
        exact g1
      · intro s hs
        have hnot : s ∉ rowChain M0 k := hdisj2 s (mem_newKeep_sub hnkne hs)
        rw [o6 s, if_neg (hnotk s hnot)]
        exact g2 s hs
      · intro s hs
        have hs' : s ∈ rowChain M0 r2 :=
          (List.dropLast_sublist _).subset (mem_remList_sub hs).1
        have hnot : s ∉ rowChain M0 k := hdisj2 s hs'
        constructor
        · rw [o6 s, if_neg (hnotk s hnot)]
          exact (g3 s hs).1
        · rw [hfr.1 s (hnotk2 s hnot)]
          exact (g3 s hs).2
  · intro s
    rw [o1]
    constructor
    · intro hm
      rcases List.mem_append.mp hm with h | h
      · obtain ⟨r2, h1, h2, h3⟩ := (f8 s).mp h
        exact ⟨r2, by omega, h2, h3⟩
      · exact ⟨k, by omega, hk, h⟩
    · rintro ⟨r2, h1, h2, h3⟩
      by_cases hek : r2 = k
      · subst hek
        exact List.mem_append.mpr (Or.inr h3)
      · exact List.mem_append.mpr (Or.inl ((f8 s).mpr ⟨r2, by omega, h2, h3⟩))
  · rw [o1]
    refine f9.append ?_ ?_
    · unfold remList
      exact ((List.dropLast_sublist _).nodup hknd).filter _
    · intro s hs1 hs2
      obtain ⟨r2, h1, h2, h3⟩ := (f8 s).mp hs1
      have hs' : s ∈ rowChain M0 r2 :=
        (List.dropLast_sublist _).subset (mem_remList_sub h3).1
      exact chains_disjoint hinv h2 hk (by omega) s hs'
        ((List.dropLast_sublist _).subset (mem_remList_sub hs2).1)

theorem rmThrs_fold (thrs : ℚ) (M0 : SparseMat) (hinv : InvMat M0) :
    ∀ k, k ≤ M0.num_rows →
      RmFold thrs M0 k ((List.range k).foldl (fun p r => rmRow thrs r p) (M0, [])) := by
  intro k
  induction k with
  | zero =>
    intro _
    refine ⟨rfl, rfl, rfl, rfl, fun _ _ => rfl, fun r2 _ _ s _ => ⟨rfl, rfl⟩,
      ?_, ?_, List.nodup_nil⟩
    · intro r2 h _
      exact absurd h (Nat.not_lt_zero _)
    · intro s
      constructor
      · intro h
        exact absurd h (List.not_mem_nil _)
      · rintro ⟨r2, h, -, -⟩
        exact absurd h (Nat.not_lt_zero _)
  | succ k ih =>
    intro hk1
    rw [List.range_succ, List.foldl_append]
    simp only [List.foldl_cons, List.foldl_nil]
    exact rmFold_step thrs M0 hinv k (by omega) _ (ih (by omega))

theorem rmThrs_spec (thrs : ℚ) (M0 : SparseMat) (hinv : InvMat M0) :
    RmFold thrs M0 M0.num_rows (magma_zmdynamicilu_rm_thrs thrs M0) :=
  rmThrs_fold thrs M0 hinv M0.num_rows (le_refl _)

theorem rmThrs_rowChain (thrs : ℚ) (M0 : SparseMat) (hinv : InvMat M0)
    {r : Nat} (hr : r < M0.num_rows) :
    rowChain (magma_zmdynamicilu_rm_thrs thrs M0).1 r = newKeep thrs M0 r := by
  have hf := rmThrs_spec thrs M0 hinv
  have hch := (hf.2.2.2.2.2.2.1 r hr hr).1
  refine rowChain_eq_of_isChain hch ?_
  rw [hf.2.1]
  have h1 : (keepList thrs M0.val (rowChain M0 r)).length
      ≤ (rowChain M0 r).dropLast.length := List.length_filter_le _ _
  have h2 : (rowChain M0 r).dropLast.length = (rowChain M0 r).length - 1 :=
    List.length_dropLast _
  have h3 : (rowChain M0 r).length ≤ M0.nnz := goodRow_length_le (hinv r hr)
  have h4 : 0 < (rowChain M0 r).length := List.length_pos.mpr (hinv r hr).2.1
  have h5 : (newKeep thrs M0 r).length
      = (keepList thrs M0.val (rowChain M0 r)).length + 1 := by
    unfold newKeep
    rw [List.length_append]
    rfl
  omega

theorem below_iff_remList (thrs : ℚ) (M0 : SparseMat) (hinv : InvMat M0)
    (habs : |thrs| = thrs) {r : Nat} (hr : r < M0.num_rows) {s : Nat}
    (hs : s ∈ rowChain M0 r) :
    (|M0.val s| < thrs ∧ M0.col s ≠ r) ↔
      s ∈ remList thrs M0.val (rowChain M0 r) := by
  have hg := hinv r hr
  have hnd := goodRow_nodup hg
  have hne := hg.2.1
  have hlast : M0.col ((rowChain M0 r).getLastD 0) = r := goodRow_col_last hg
  constructor
  · rintro ⟨hv, hc⟩
    refine mem_remList_of (mem_dropLast_of_ne_last hne hs ?_) (by rwa [habs])
    intro he
    exact hc (by rw [he]; exact hlast)
  · intro hm
    obtain ⟨hd, hv⟩ := mem_remList_sub hm
    refine ⟨by rwa [habs] at hv, ?_⟩
    intro hc
    have hsl : s ≠ (rowChain M0 r).getLastD 0 := by
      intro he
      exact getLastD_not_mem_dropLast hnd hne (by rw [← he]; exact hd)
    have hinj := List.inj_on_of_nodup_map (goodRow_cols_nodup hg)
    exact hsl (hinj hs (getLastD_mem hne) (hc.trans hlast.symm))

/-- C3: after threshold removal with a nonnegative threshold on a factor
satisfying I1-I5, every examined chain slot whose magnitude is below the
threshold and whose column differs from its row is freed (value zeroed,
link set to -1, slot recorded in the freed list); no live off-diagonal
entry of the result has magnitude below the threshold; and the freed list
is duplicate-free and holds exactly the below-threshold off-diagonal
slots, so its length is the number of freed slots. -/
theorem rm_thrs_removes_below_threshold (thrs : ℚ) (M0 : SparseMat)
    (hinv : InvMat M0) (hpos : 0 ≤ thrs) :
    (∀ r, r < M0.num_rows → ∀ s ∈ rowChain M0 r,
      |M0.val s| < thrs → M0.col s ≠ r →
      (magma_zmdynamicilu_rm_thrs thrs M0).1.val s = 0 ∧
      (magma_zmdynamicilu_rm_thrs thrs M0).1.list s = -1 ∧
      s ∈ (magma_zmdynamicilu_rm_thrs thrs M0).2) ∧
    (∀ r, r < M0.num_rows →
      ∀ s ∈ rowChain (magma_zmdynamicilu_rm_thrs thrs M0).1 r,
      (magma_zmdynamicilu_rm_thrs thrs M0).1.col s ≠ r →
      ¬ |(magma_zmdynamicilu_rm_thrs thrs M0).1.val s| < thrs) ∧
    (magma_zmdynamicilu_rm_thrs thrs M0).2.Nodup ∧
    (∀ s, s ∈ (magma_zmdynamicilu_rm_thrs thrs M0).2 ↔
      ∃ r, r < M0.num_rows ∧ s ∈ rowChain M0 r ∧
        |M0.val s| < thrs ∧ M0.col s ≠ r) := by
  have habs : |thrs| = thrs := abs_of_nonneg hpos
  have hf := rmThrs_spec thrs M0 hinv
  obtain ⟨f1, f2, f3, f4, f5, f6, f7, f8, f9⟩ := hf
  refine ⟨?_, ?_, f9, ?_⟩
  · intro r hr s hs hv hc
    have hrem : s ∈ remList thrs M0.val (rowChain M0 r) :=
      (below_iff_remList thrs M0 hinv habs hr hs).mp ⟨hv, hc⟩
    have h3 := (f7 r hr hr).2.2 s hrem
    exact ⟨h3.1, h3.2, (f8 s).mpr ⟨r, hr, hr, hrem⟩⟩
  · intro r hr s hs hc
    rw [rmThrs_rowChain thrs M0 hinv hr] at hs
    have hsmem : s ∈ rowChain M0 r := mem_newKeep_sub (hinv r hr).2.1 hs
    have hval := (f7 r hr hr).2.1 s hs
    unfold newKeep at hs
    rcases List.mem_append.mp hs with h | h
    · rw [hval]
      have h2 := (mem_keepList_sub h).2
      rwa [habs] at h2
    · have hcol : M0.col s = r := by
        rw [List.mem_singleton.mp h]
        exact goodRow_col_last (hinv r hr)
      rw [f3] at hc
      exact absurd hcol hc
  · intro s
    constructor
    · intro h
      obtain ⟨r2, h1, h2, h3⟩ := (f8 s).mp h
      have hs' : s ∈ rowChain M0 r2 :=
        (List.dropLast_sublist _).subset (mem_remList_sub h3).1
      obtain ⟨hv, hc⟩ := (below_iff_remList thrs M0 hinv habs h1 hs').mpr h3
      exact ⟨r2, h1, hs', hv, hc⟩
    · rintro ⟨r2, h1, h2, h3, h4⟩
      exact (f8 s).mpr ⟨r2, h1, h1,
        (below_iff_remList thrs M0 hinv habs h1 h2).mp ⟨h3, h4⟩⟩

theorem rm_thrs_removes_below_threshold_witness :
    (magma_zmdynamicilu_rm_thrs 4 Wfac).1.val 2 = 0 ∧
    (magma_zmdynamicilu_rm_thrs 4 Wfac).1.list 2 = -1 ∧
    2 ∈ (magma_zmdynamicilu_rm_thrs 4 Wfac).2 :=
  (rm_thrs_removes_below_threshold 4 Wfac (by decide) zero_le_four).1
    1 (by decide) 2 (by decide) (by norm_num [Wfac]) (by decide)

/-- C4: threshold removal never removes a diagonal entry: for every row of
a factor satisfying I1-I5 and any threshold (even one exceeding the
diagonal's magnitude), the row's chain in the result is nonempty and its
last element still carries column r. -/
theorem rm_thrs_diagonal_preserved (thrs : ℚ) (M0 : SparseMat)
    (hinv : InvMat M0) :
    ∀ r, r < M0.num_rows →
      rowChain (magma_zmdynamicilu_rm_thrs thrs M0).1 r ≠ [] ∧
      ((rowChain (magma_zmdynamicilu_rm_thrs thrs M0).1 r).map
          (magma_zmdynamicilu_rm_thrs thrs M0).1.col).getLast? = some r := by
  intro r hr
  have hchEq := rmThrs_rowChain thrs M0 hinv hr
  have hne : newKeep thrs M0 r ≠ [] := by
    unfold newKeep
    simp
  rw [hchEq]
  refine ⟨hne, ?_⟩
  rw [map_getLast? hne]
  have hlastEq : (newKeep thrs M0 r).getLastD 0 = (rowChain M0 r).getLastD 0 := by
    unfold newKeep
    exact List.getLastD_concat _ _ _
  have hcol := (rmThrs_spec thrs M0 hinv).2.2.1
  rw [hcol, hlastEq, goodRow_col_last (hinv r hr)]

theorem rm_thrs_diagonal_preserved_witness :
    rowChain (magma_zmdynamicilu_rm_thrs 100 Wfac).1 2 ≠ [] ∧
    ((rowChain (magma_zmdynamicilu_rm_thrs 100 Wfac).1 2).map
        (magma_zmdynamicilu_rm_thrs 100 Wfac).1.col).getLast? = some 2 :=
  rm_thrs_diagonal_preserved 100 Wfac (by decide) 2 (by decide)

theorem length_le_of_nodup_lt {l : List Nat} {n : Nat} (hnd : l.Nodup)
    (hb : ∀ s ∈ l, s < n) : l.length ≤ n := by
  have hsub : l.toFinset ⊆ Finset.range n := fun s hs =>
    Finset.mem_range.mpr (hb s (List.mem_toFinset.mp hs))
  calc l.length = l.toFinset.card := (List.toFinset_card_of_nodup hnd).symm
    _ ≤ (Finset.range n).card := Finset.card_le_card hsub
    _ = n := Finset.card_range _

theorem getLastD_append_right {xs ys : List Nat} (h : ys ≠ []) :
    (xs ++ ys).getLastD 0 = ys.getLastD 0 := by
  rw [List.getLastD_eq_getLast?, List.getLastD_eq_getLast?,
    List.getLast?_append_of_ne_nil _ h]

theorem spliceLoop_succ (nr nc loc fuel j jn : Nat) (M : SparseMat) (nins : Nat) :
    spliceLoop nr nc loc (fuel+1) j jn M nins =
      if j = 0 then (M, nins)
      else if M.col jn = nc then (M, nins)
      else if nc < M.col jn then (spliceUpd nr nc loc j jn M, nins + 1)
      else spliceLoop nr nc loc fuel jn (M.list jn).toNat M nins := rfl

theorem insertBody_eq (nr nc loc : Nat) (M : SparseMat) (nins : Nat) :
    insertBody nr nc loc M nins =
      if nc < M.col (M.row nr) then (prependUpd nr nc loc (M.row nr) M, nins + 1)
      else if M.col (M.row nr) = nc then (M, nins)
      else spliceLoop nr nc loc M.nnz (M.row nr) (M.list (M.row nr)).toNat M nins := rfl

theorem insertLoop_succ (Ln : Cand) (num_rm : Nat) (rmloc : Nat → Nat)
    (fuel i nins : Nat) (M : SparseMat) :
    insertLoop Ln num_rm rmloc (fuel+1) i nins M =
      if nins < num_rm then
        if Ln.nnz ≤ i then (M, nins)
        else insertLoop Ln num_rm rmloc fuel (i+1)
          (insertBody (Ln.rowidx i) (Ln.col i) (rmloc nins) M nins).2
          (insertBody (Ln.rowidx i) (Ln.col i) (rmloc nins) M nins).1
      else (M, nins) := rfl

theorem spliceLoop_spec (nr nc loc : Nat) :
    ∀ (l2 : List Nat) (j fuel : Nat) (M : SparseMat) (nins : Nat),
      j ≠ 0 →
      IsChainSeg M j (j :: l2) 0 →
      ((j :: l2).map M.col).Chain' (· < ·) →
      M.col j < nc →
      M.col ((j :: l2).getLastD 0) = nr →
      nc < nr →
      (j :: l2).Nodup →
      loc ∉ j :: l2 →
      loc ≠ 0 →
      l2.length < fuel →
      SpliceOut nr nc loc M nins j l2
        (spliceLoop nr nc loc fuel j (M.list j).toNat M nins) := by
  intro l2
  induction l2 with
  | nil =>
    intro j fuel M nins hj hseg hsort hjlt hlast hnc hnd hloc hloc0 hfuel
    exfalso
    have hlj : M.col j = nr := hlast
    omega
  | cons b l2' ih =>
    intro j fuel M nins hj hseg hsort hjlt hlast hnc hnd hloc hloc0 hfuel
    obtain ⟨-, -, hjpos, hrest⟩ := hseg
    have hb : (M.list j).toNat = b := hrest.1
    have hb0 : b ≠ 0 := hrest.2.1
    have hrest' : IsChainSeg M b (b :: l2') 0 := by rw [hb] at hrest; exact hrest
    have hjnot : j ∉ b :: l2' := (List.nodup_cons.mp hnd).1
    have hjb : j ≠ b := fun he => hjnot (by rw [he]; exact List.mem_cons_self _ _)
    have hlocj : loc ≠ j := fun he => hloc (by rw [he]; exact List.mem_cons_self _ _)
    have hloct : loc ∉ b :: l2' := fun h => hloc (List.mem_cons_of_mem _ h)
    have hsort2 : ((b :: l2').map M.col).Chain' (· < ·) := by
      rw [List.map_cons] at hsort
      exact hsort.tail
    have hpw2 : ((b :: l2').map M.col).Pairwise (· < ·) :=
      List.chain'_iff_pairwise.mp hsort2
    cases fuel with
    | zero => omega
    | succ f =>
    rw [hb, spliceLoop_succ, if_neg hj]
    by_cases hdup : M.col b = nc
    · rw [if_pos hdup]
      constructor
      · intro _
        rfl
      · intro hmem
        exfalso
        refine hmem ?_
        rw [← hdup]
        exact List.mem_map_of_mem M.col (List.mem_cons_self _ _)
    · rw [if_neg hdup]
      by_cases hins : nc < M.col b
      · rw [if_pos hins]
        constructor
        · intro hmem
          exfalso
          obtain ⟨x, hx, hxe⟩ := List.mem_map.mp hmem
          rcases List.mem_cons.mp hx with rfl | hx'
          · exact hdup hxe
          · have hlt : M.col b < M.col x :=
              (List.pairwise_cons.mp hpw2).1 _ (List.mem_map_of_mem _ hx')
            omega
        · intro _
          refine ⟨rfl, rfl, rfl, rfl, rfl, rfl, rfl, ?_, [], b :: l2', rfl,
            (by simp), ?_, ?_, ?_⟩
          · intro s hsl hsm
            have hsj : s ≠ j := fun he => hsm (by rw [he]; exact List.mem_cons_self _ _)
            show Function.update (Function.update M.list j (Int.ofNat loc)) loc
              (Int.ofNat b) s = M.list s
            rw [Function.update_noteq hsl, Function.update_noteq hsj]
          · intro x hx
            rcases List.mem_cons.mp hx with rfl | hx'
            · exact hjlt
            · cases hx'
          · intro x hx
            rcases List.mem_cons.mp hx with rfl | hx'
            · exact hins
            · have hlt : M.col b < M.col x :=
                (List.pairwise_cons.mp hpw2).1 _ (List.mem_map_of_mem _ hx')
              omega
          · refine ⟨rfl, hj, ?_, ?_⟩
            · show 0 ≤ Function.update (Function.update M.list j (Int.ofNat loc))
                loc (Int.ofNat b) j
              rw [Function.update_noteq (Ne.symm hlocj), Function.update_same]
              exact Int.ofNat_nonneg loc
            · show IsChainSeg _ (Function.update (Function.update M.list j
                (Int.ofNat loc)) loc (Int.ofNat b) j).toNat ([] ++ loc :: b :: l2') 0
              rw [Function.update_noteq (Ne.symm hlocj), Function.update_same]
              show IsChainSeg _ loc (loc :: b :: l2') 0
              refine ⟨rfl, hloc0, ?_, ?_⟩
              · show 0 ≤ Function.update (Function.update M.list j (Int.ofNat loc))
                  loc (Int.ofNat b) loc
                rw [Function.update_same]
                exact Int.ofNat_nonneg b
              · show IsChainSeg _ (Function.update (Function.update M.list j
                  (Int.ofNat loc)) loc (Int.ofNat b) loc).toNat (b :: l2') 0
                rw [Function.update_same]
                show IsChainSeg _ b (b :: l2') 0
                refine (isChainSeg_congr (b :: l2') ?_ b 0).mpr hrest'
                intro x hx
                have hxl : x ≠ loc := fun he => hloct (by rw [← he]; exact hx)
                have hxj : x ≠ j := fun he => hjnot (by rw [← he]; exact hx)
                show Function.update (Function.update M.list j (Int.ofNat loc)) loc
                  (Int.ofNat b) x = M.list x
                rw [Function.update_noteq hxl, Function.update_noteq hxj]
      · rw [if_neg hins]
        have hblt : M.col b < nc := by omega
        have hel : (j :: b :: l2').getLastD 0 = (b :: l2').getLastD 0 :=
          getLastD_cons_of_ne_nil _ (by simp)
        rw [hel] at hlast
        have ihh := ih b f M nins hb0 hrest' hsort2 hblt hlast hnc
          (List.nodup_cons.mp hnd).2 hloct hloc0 (by simp at hfuel ⊢; omega)
        constructor
        · intro hmem
          have hmem' : nc ∈ l2'.map M.col := by
            rcases List.mem_map.mp hmem with ⟨x, hx, hxe⟩
            rcases List.mem_cons.mp hx with rfl | hx'
            · exact absurd hxe hdup
            · rw [← hxe]
              exact List.mem_map_of_mem _ hx'
          exact ihh.1 hmem'
        · intro hmem
          have hmem' : nc ∉ l2'.map M.col := fun h => hmem
            (by rw [List.map_cons]; exact List.mem_cons_of_mem _ h)
          obtain ⟨e1, e2, e3, e4, e5, e6, e7, e8, q1, q2, heq, hq2, hql, hqr, hseg2⟩ :=
            ihh.2 hmem'
          have hjf : (spliceLoop nr nc loc f b (M.list b).toNat M nins).1.list j
              = M.list j := e8 j (Ne.symm hlocj) hjnot
          refine ⟨e1, e2, e3, e4, e5, e6, e7, ?_, b :: q1, q2, (by rw [heq, List.cons_append]), hq2,
            ?_, hqr, ?_⟩
          · intro s hsl hsm
            exact e8 s hsl (fun h => hsm (List.mem_cons_of_mem _ h))
          · intro x hx
            rcases List.mem_cons.mp hx with rfl | hx'
            · exact hjlt
            · exact hql x hx'
          · refine ⟨rfl, hj, ?_, ?_⟩
            · rw [hjf]
              exact hjpos
            · rw [hjf, hb]
              exact hseg2

theorem insertBody_spec (nr nc loc : Nat) (M : SparseMat) (nins : Nat)
    (hg : GoodRow M nr (rowChain M nr)) (hnc : nc < nr)
    (hloc : loc ∉ rowChain M nr) (hloc0 : loc ≠ 0) :
    InsOut nr nc loc M nins (insertBody nr nc loc M nins) := by
  have hnd := goodRow_nodup hg
  have hlen := goodRow_length_le hg
  have hlastc := goodRow_col_last hg
  obtain ⟨hch, hne, hsort, -, -, -⟩ := hg
  obtain ⟨a, rest, hl⟩ : ∃ a rest, rowChain M nr = a :: rest := by
    cases h : rowChain M nr with
    | nil => exact absurd h hne
    | cons a rest => exact ⟨a, rest, rfl⟩
  rw [hl] at hch hnd hlen hsort hloc hlastc
  have ha : M.row nr = a := hch.head_eq
  subst ha
  have hpw : ((M.row nr :: rest).map M.col).Pairwise (· < ·) :=
    List.chain'_iff_pairwise.mp hsort
  rw [insertBody_eq]
  unfold InsOut
  rw [hl]
  by_cases h1 : nc < M.col (M.row nr)
  · rw [if_pos h1]
    constructor
    · intro hmem
      exfalso
      obtain ⟨x, hx, hxe⟩ := List.mem_map.mp hmem
      rcases List.mem_cons.mp hx with rfl | hx'
      · omega
      · have hlt2 : M.col (M.row nr) < M.col x :=
          (List.pairwise_cons.mp hpw).1 _ (List.mem_map_of_mem _ hx')
        omega
    · intro _
      refine ⟨rfl, rfl, rfl, ?_, rfl, rfl, rfl, ?_, [], M.row nr :: rest,
        (by simp), (by simp), ?_, ?_, ?_⟩
      · intro r2 hr2
        show Function.update M.row nr loc r2 = M.row r2
        exact Function.update_noteq hr2 _ _
      · intro s hsl _
        show Function.update M.list loc (Int.ofNat (M.row nr)) s = M.list s
        exact Function.update_noteq hsl _ _
      · intro x hx
        exact absurd hx (List.not_mem_nil x)
      · intro x hx
        rcases List.mem_cons.mp hx with rfl | hx'
        · exact h1
        · have hlt2 : M.col (M.row nr) < M.col x :=
            (List.pairwise_cons.mp hpw).1 _ (List.mem_map_of_mem _ hx')
          omega
      · have hrow : (prependUpd nr nc loc (M.row nr) M).row nr = loc :=
          Function.update_same _ _ _
        rw [hrow]
        show IsChainSeg _ loc (loc :: M.row nr :: rest) 0
        refine ⟨rfl, hloc0, ?_, ?_⟩
        · show 0 ≤ Function.update M.list loc (Int.ofNat (M.row nr)) loc
          rw [Function.update_same]
          exact Int.ofNat_nonneg _
        · show IsChainSeg _ (Function.update M.list loc
            (Int.ofNat (M.row nr)) loc).toNat (M.row nr :: rest) 0
          rw [Function.update_same]
          show IsChainSeg _ (M.row nr) (M.row nr :: rest) 0
          refine (isChainSeg_congr _ ?_ _ _).mpr hch
          intro x hx
          have hxl : x ≠ loc := fun he => hloc (by rw [← he]; exact hx)
          show Function.update M.list loc (Int.ofNat (M.row nr)) x = M.list x
          exact Function.update_noteq hxl _ _
  · rw [if_neg h1]
    by_cases h2 : M.col (M.row nr) = nc
    · rw [if_pos h2]
      constructor
      · intro _
        rfl
      · intro hmem
        exfalso
        refine hmem ?_
        rw [← h2]
        exact List.mem_map_of_mem M.col (List.mem_cons_self _ _)
    · rw [if_neg h2]
      have hcolarm : M.col (M.row nr) < nc := by omega
      have hsp := spliceLoop_spec nr nc loc rest (M.row nr) M.nnz M nins
        hch.2.1 hch hsort hcolarm hlastc hnc hnd
        hloc hloc0 (by simp at hlen; omega)
      constructor
      · intro hmem
        have hmem' : nc ∈ rest.map M.col := by
          rcases List.mem_map.mp hmem with ⟨x, hx, hxe⟩
          rcases List.mem_cons.mp hx with rfl | hx'
          · exact absurd hxe h2
          · rw [← hxe]
            exact List.mem_map_of_mem _ hx'
        exact hsp.1 hmem'
      · intro hmem
        have hmem' : nc ∉ rest.map M.col := fun h => hmem
          (by rw [List.map_cons]; exact List.mem_cons_of_mem _ h)
        obtain ⟨e1, e2, e3, e4, e5, e6, e7, e8, q1, q2, heq, hq2, hql, hqr, hseg2⟩ :=
          hsp.2 hmem'
        refine ⟨e1, e2, e3, (fun r2 _ => by rw [e4]), e5, e6, e7, ?_,
          M.row nr :: q1, q2, (by rw [heq, List.cons_append]), hq2, hql, hqr, ?_⟩
        · intro s hsl hsm
          exact e8 s hsl hsm
        · rw [e4]
          exact hseg2

theorem insertBody_preserve (nr nc loc : Nat) (M : SparseMat) (nins : Nat)
    (hinv : InvMat M) (hnr : nr < M.num_rows) (hnc : nc < nr)
    (hfree : FreeSlot M loc) :
    (insertBody nr nc loc M nins).1.num_rows = M.num_rows ∧
    (insertBody nr nc loc M nins).1.nnz = M.nnz ∧
    InvMat (insertBody nr nc loc M nins).1 ∧
    (∀ s, s ≠ loc → FreeSlot M s → FreeSlot (insertBody nr nc loc M nins).1 s) ∧
    (nc ∈ (rowChain M nr).map M.col → insertBody nr nc loc M nins = (M, nins)) ∧
    (nc ∉ (rowChain M nr).map M.col →
      (insertBody nr nc loc M nins).2 = nins + 1 ∧
      nc ∈ (rowChain (insertBody nr nc loc M nins).1 nr).map
        (insertBody nr nc loc M nins).1.col) ∧
    (∀ s, s ≠ loc → s ∉ rowChain M nr →
      (insertBody nr nc loc M nins).1.list s = M.list s ∧
      (insertBody nr nc loc M nins).1.col s = M.col s ∧
      (insertBody nr nc loc M nins).1.rowidx s = M.rowidx s ∧
      (insertBody nr nc loc M nins).1.val s = M.val s) := by
  have hg := hinv nr hnr
  have hio := insertBody_spec nr nc loc M nins hg hnc (hfree.2.2 nr hnr) hfree.1
  by_cases hdup : nc ∈ (rowChain M nr).map M.col
  · have heq2 := hio.1 hdup
    rw [heq2]
    exact ⟨rfl, rfl, hinv, (fun s _ h => h), (fun _ => rfl),
      (fun h => absurd hdup h), (fun s _ _ => ⟨rfl, rfl, rfl, rfl⟩)⟩
  · obtain ⟨e1, e2, e3, e4, e5, e6, e7, e8, q1, q2, heq, hq2, hql, hqr, hchn⟩ :=
      hio.2 hdup
    have hnd := goodRow_nodup hg
    have hloc := hfree.2.2 nr hnr
    have hq1loc : loc ∉ q1 := fun h =>
      hloc (by rw [heq]; exact List.mem_append.mpr (Or.inl h))
    have hq2loc : loc ∉ q2 := fun h =>
      hloc (by rw [heq]; exact List.mem_append.mpr (Or.inr h))
    have hndq : (q1 ++ q2).Nodup := by rw [← heq]; exact hnd
    have hnewnd : (q1 ++ loc :: q2).Nodup := by
      rw [List.nodup_append] at hndq ⊢
      obtain ⟨n1, n2, ndis⟩ := hndq
      refine ⟨n1, List.nodup_cons.mpr ⟨hq2loc, n2⟩, ?_⟩
      intro x hx1 hx2
      rcases List.mem_cons.mp hx2 with rfl | hx2'
      · exact hq1loc hx1
      · exact ndis hx1 hx2'
    have hsub : ∀ x ∈ q1 ++ loc :: q2, x = loc ∨ x ∈ rowChain M nr := by
      intro x hx
      rcases List.mem_append.mp hx with h | h
      · exact Or.inr (by rw [heq]; exact List.mem_append.mpr (Or.inl h))
      · rcases List.mem_cons.mp h with rfl | h'
        · exact Or.inl rfl
        · exact Or.inr (by rw [heq]; exact List.mem_append.mpr (Or.inr h'))
    have hbound : ∀ x ∈ q1 ++ loc :: q2, x < M.nnz := by
      intro x hx
      rcases hsub x hx with rfl | h
      · exact hfree.2.1
      · exact hg.2.2.2.2.2 x h
    have hrcout : rowChain (insertBody nr nc loc M nins).1 nr = q1 ++ loc :: q2 := by
      refine rowChain_eq_of_isChain hchn ?_
      rw [e3]
      exact length_le_of_nodup_lt hnewnd hbound
    have hm1 : q1.map (insertBody nr nc loc M nins).1.col = q1.map M.col :=
      List.map_congr_left (fun x hx => by
        rw [e5]
        exact Function.update_noteq (fun he => hq1loc (by rw [← he]; exact hx)) _ _)
    have hm2 : q2.map (insertBody nr nc loc M nins).1.col = q2.map M.col :=
      List.map_congr_left (fun x hx => by
        rw [e5]
        exact Function.update_noteq (fun he => hq2loc (by rw [← he]; exact hx)) _ _)
    have hmloc : (insertBody nr nc loc M nins).1.col loc = nc := by
      rw [e5]
      exact Function.update_same _ _ _
    have horig : ((q1 ++ q2).map M.col).Pairwise (· < ·) := by
      rw [← heq]
      exact List.chain'_iff_pairwise.mp hg.2.2.1
    rw [List.map_append] at horig
    obtain ⟨pw1, pw2, -⟩ := List.pairwise_append.mp horig
    have hsorted : ((q1 ++ loc :: q2).map
        (insertBody nr nc loc M nins).1.col).Chain' (· < ·) := by
      rw [List.map_append, List.map_cons, hm1, hm2, hmloc]
      refine List.chain'_iff_pairwise.mpr (List.pairwise_append.mpr ⟨pw1, ?_, ?_⟩)
      · refine List.pairwise_cons.mpr ⟨?_, pw2⟩
        intro y hy
        obtain ⟨u, hu, rfl⟩ := List.mem_map.mp hy
        exact hqr u hu
      · intro x hx y hy
        obtain ⟨u, hu, rfl⟩ := List.mem_map.mp hx
        have hxlt : M.col u < nc := hql u hu
        rcases List.mem_cons.mp hy with rfl | hy'
        · exact hxlt
        · obtain ⟨v, hv, rfl⟩ := List.mem_map.mp hy'
          exact hxlt.trans (hqr v hv)
    have hgl : (q1 ++ loc :: q2).getLastD 0 = q2.getLastD 0 := by
      rw [getLastD_append_right (by simp), getLastD_cons_of_ne_nil _ hq2]
    have hglmem : q2.getLastD 0 ∈ q2 := getLastD_mem hq2
    have hgll : (rowChain M nr).getLastD 0 = q2.getLastD 0 := by
      rw [heq, getLastD_append_right hq2]
    have hlastcol : (insertBody nr nc loc M nins).1.col
        ((q1 ++ loc :: q2).getLastD 0) = nr := by
      rw [hgl, e5, Function.update_noteq
        (fun he => hq2loc (by rw [← he]; exact hglmem)), ← hgll]
      exact goodRow_col_last hg
    have hgood_nr : GoodRow (insertBody nr nc loc M nins).1 nr
        (rowChain (insertBody nr nc loc M nins).1 nr) := by
      rw [hrcout]
      refine ⟨hchn, (by simp), hsorted, ?_, ?_, ?_⟩
      · rw [map_getLast? (by simp), hlastcol]
      · intro s hs
        rcases hsub s hs with rfl | h
        · rw [e6]
          exact Function.update_same _ _ _
        · rw [e6, Function.update_noteq (fun he => hloc (by rw [← he]; exact h))]
          exact hg.2.2.2.2.1 s h
      · intro s hs
        rw [e3]
        exact hbound s hs
    have hother : ∀ r2, r2 ≠ nr → r2 < M.num_rows →
        rowChain (insertBody nr nc loc M nins).1 r2 = rowChain M r2 ∧
        GoodRow (insertBody nr nc loc M nins).1 r2
          (rowChain (insertBody nr nc loc M nins).1 r2) := by
      intro r2 hne2 hr2
      have hg2 := hinv r2 hr2
      have hdisj := chains_disjoint hinv hr2 hnr hne2
      have hlnotmem : ∀ s ∈ rowChain M r2, s ≠ loc := fun s hs he =>
        hfree.2.2 r2 hr2 (by rw [← he]; exact hs)
      have hlf : ∀ x ∈ rowChain M r2,
          (insertBody nr nc loc M nins).1.list x = M.list x := fun x hx =>
        e8 x (hlnotmem x hx) (hdisj x hx)
      have hch2 : LinkChain (insertBody nr nc loc M nins).1
          ((insertBody nr nc loc M nins).1.row r2) (rowChain M r2) := by
        rw [e4 r2 hne2, isChain_congr (rowChain M r2) hlf]
        exact hg2.1
      have hrc2 : rowChain (insertBody nr nc loc M nins).1 r2 = rowChain M r2 :=
        rowChain_eq_of_isChain hch2 (by rw [e3]; exact goodRow_length_le hg2)
      refine ⟨hrc2, ?_⟩
      rw [hrc2]
      have hmc : (rowChain M r2).map (insertBody nr nc loc M nins).1.col
          = (rowChain M r2).map M.col :=
        List.map_congr_left (fun x hx => by
          rw [e5]
          exact Function.update_noteq (hlnotmem x hx) _ _)
      refine ⟨hch2, hg2.2.1, ?_, ?_, ?_, ?_⟩
      · rw [hmc]
        exact hg2.2.2.1
      · rw [hmc]
        exact hg2.2.2.2.1
      · intro s hs
        rw [e6, Function.update_noteq (hlnotmem s hs)]
        exact hg2.2.2.2.2.1 s hs
      · intro s hs
        rw [e3]
        exact hg2.2.2.2.2.2 s hs
    refine ⟨e2, e3, ?_, ?_, (fun h => absurd h hdup), (fun _ => ⟨e1, ?_⟩), ?_⟩
    · intro r2 hr2
      rw [e2] at hr2
      by_cases hne2 : r2 = nr
      · subst hne2
        exact hgood_nr
      · exact (hother r2 hne2 hr2).2
    · intro s hsl hfs
      refine ⟨hfs.1, (by rw [e3]; exact hfs.2.1), ?_⟩
      intro r2 hr2
      rw [e2] at hr2
      by_cases hne2 : r2 = nr
      · rw [hne2, hrcout]
        intro hmem2
        rcases hsub s hmem2 with rfl | h
        · exact hsl rfl
        · exact hfs.2.2 nr hnr h
      · rw [(hother r2 hne2 hr2).1]
        exact hfs.2.2 r2 hr2
    · have hm3 : (insertBody nr nc loc M nins).1.col loc ∈
          (q1 ++ loc :: q2).map (insertBody nr nc loc M nins).1.col :=
        List.mem_map_of_mem _ (List.mem_append.mpr (Or.inr (List.mem_cons_self _ _)))
      rw [hmloc] at hm3
      rw [hrcout]
      exact hm3
    · intro s hsl hsm
      refine ⟨e8 s hsl hsm, ?_, ?_, ?_⟩
      · rw [e5]
        exact Function.update_noteq hsl _ _
      · rw [e6]
        exact Function.update_noteq hsl _ _
      · rw [e7]
        exact Function.update_noteq hsl _ _

theorem insertLoop_inv (M0 : SparseMat) (num_rm : Nat) (rmloc : Nat → Nat)
    (Ln : Cand)
    (hcand : ∀ q, q < Ln.nnz → Ln.rowidx q < M0.num_rows ∧ Ln.col q < Ln.rowidx q)
    (hinj : ∀ t1, t1 < num_rm → ∀ t2, t2 < num_rm → rmloc t1 = rmloc t2 → t1 = t2) :
    ∀ fuel i nins M,
      M.num_rows = M0.num_rows → M.nnz = M0.nnz → InvMat M →
      (∀ t, nins ≤ t → t < num_rm → FreeSlot M (rmloc t)) →
      (insertLoop Ln num_rm rmloc fuel i nins M).1.num_rows = M0.num_rows ∧
      (insertLoop Ln num_rm rmloc fuel i nins M).1.nnz = M0.nnz ∧
      InvMat (insertLoop Ln num_rm rmloc fuel i nins M).1 := by
  intro fuel
  induction fuel with
  | zero =>
    intro i nins M h1 h2 h3 _
    exact ⟨h1, h2, h3⟩
  | succ f ih =>
    intro i nins M h1 h2 h3 hfree
    rw [insertLoop_succ]
    by_cases hc1 : nins < num_rm
    · rw [if_pos hc1]
      by_cases hc2 : Ln.nnz ≤ i
      · rw [if_pos hc2]
        exact ⟨h1, h2, h3⟩
      · rw [if_neg hc2]
        have hq := hcand i (by omega)
        have hp := insertBody_preserve (Ln.rowidx i) (Ln.col i) (rmloc nins) M nins
          h3 (by rw [h1]; exact hq.1) hq.2 (hfree nins (le_refl _) hc1)
        refine ih (i+1) _ _ ?_ ?_ hp.2.2.1 ?_
        · rw [hp.1, h1]
        · rw [hp.2.1, h2]
        · intro t ht1 ht2
          by_cases hdup : Ln.col i ∈ (rowChain M (Ln.rowidx i)).map M.col
          · have he := hp.2.2.2.2.1 hdup
            rw [he] at ht1 ⊢
            exact hfree t ht1 ht2
          · have h6 := (hp.2.2.2.2.2.1 hdup).1
            rw [h6] at ht1
            refine hp.2.2.2.1 (rmloc t) ?_ (hfree t (by omega) ht2)
            intro he
            have := hinj t ht2 nins hc1 he
            omega
    · rw [if_neg hc1]
      exact ⟨h1, h2, h3⟩

/-- C5: the insertion routine preserves the strict column ordering (I2) and
duplicate-freeness (I3) of every row chain: on a factor satisfying I1-I5,
with candidates strictly below the diagonal and rows in range, and with the
freed-slot array holding pairwise-distinct free slots, every row chain of
the returned factor still has strictly increasing (hence duplicate-free)
column indices - a candidate is spliced at its column-sorted position, and
a candidate whose column already exists in its row is skipped. -/
theorem insert_preserves_sorted_nodup (osInfo : Int) (num_rm : Nat)
    (rmloc : Nat → Nat) (Ln : Cand) (M : SparseMat) (hinv : InvMat M)
    (hcand : ∀ q, q < Ln.nnz → Ln.rowidx q < M.num_rows ∧ Ln.col q < Ln.rowidx q)
    (hfree : ∀ t, t < num_rm → FreeSlot M (rmloc t))
    (hinj : ∀ t1, t1 < num_rm → ∀ t2, t2 < num_rm → rmloc t1 = rmloc t2 → t1 = t2) :
    ∀ r, r < M.num_rows →
      ((rowChain (magma_zmdynamicic_insert osInfo num_rm rmloc Ln M).1 r).map
        (magma_zmdynamicic_insert osInfo num_rm rmloc Ln M).1.col).Chain' (· < ·) ∧
      ((rowChain (magma_zmdynamicic_insert osInfo num_rm rmloc Ln M).1 r).map
        (magma_zmdynamicic_insert osInfo num_rm rmloc Ln M).1.col).Nodup := by
  intro r hr
  unfold magma_zmdynamicic_insert
  by_cases h1 : Ln.nnz ≤ num_rm
  · rw [if_pos h1]
    exact ⟨(hinv r hr).2.2.1, goodRow_cols_nodup (hinv r hr)⟩
  · rw [if_neg h1]
    by_cases h2 : osInfo ≠ 0
    · rw [if_pos h2]
      exact ⟨(hinv r hr).2.2.1, goodRow_cols_nodup (hinv r hr)⟩
    · rw [if_neg h2]
      dsimp only
      have hcand' : ∀ q, q < (rankCand Ln).nnz →
          (rankCand Ln).rowidx q < M.num_rows ∧
          (rankCand Ln).col q < (rankCand Ln).rowidx q := hcand
      have hl := insertLoop_inv M num_rm rmloc (rankCand Ln) hcand' hinj
        (rankCand Ln).nnz 0 0 M rfl rfl hinv (fun t _ ht => hfree t ht)
      have hg := hl.2.2 r (by rw [hl.1]; exact hr)
      exact ⟨hg.2.2.1, goodRow_cols_nodup hg⟩

theorem insert_preserves_sorted_nodup_witness :
    ((rowChain (magma_zmdynamicic_insert 0 1 (fun _ => 6) LnewC5 Wins).1 2).map
      (magma_zmdynamicic_insert 0 1 (fun _ => 6) LnewC5 Wins).1.col).Chain' (· < ·) ∧
    ((rowChain (magma_zmdynamicic_insert 0 1 (fun _ => 6) LnewC5 Wins).1 2).map
      (magma_zmdynamicic_insert 0 1 (fun _ => 6) LnewC5 Wins).1.col).Nodup :=
  insert_preserves_sorted_nodup 0 1 (fun _ => 6) LnewC5 Wins (by decide)
    (by decide) (by decide) (by decide) 2 (by decide)

/-- C6: a duplicate candidate does not consume a freed slot: on a factor
satisfying I1-I5, with a candidate list carrying the same absent position
(nr,nc) three times and num_rm = 2, the insertion routine inserts exactly
one entry at (nr,nc) (the result counter is 1 and the column appears once
in the duplicate-free chain) and consumes only the first freed slot - the
slot `rmloc 1` keeps all four of its fields, staying available. -/
theorem insert_duplicate_consumes_one_slot (rmloc : Nat → Nat) (Ln : Cand)
    (M : SparseMat) (nr nc : Nat) (hinv : InvMat M)
    (hnr : nr < M.num_rows) (hnc : nc < nr)
    (habs : nc ∉ (rowChain M nr).map M.col)
    (hnnz : Ln.nnz = 3)
    (hrow : ∀ q, q < 3 → Ln.rowidx q = nr) (hcol : ∀ q, q < 3 → Ln.col q = nc)
    (hf0 : FreeSlot M (rmloc 0)) (hf1 : FreeSlot M (rmloc 1))
    (hne01 : rmloc 1 ≠ rmloc 0) :
    (magma_zmdynamicic_insert 0 2 rmloc Ln M).2.1 = 1 ∧
    nc ∈ (rowChain (magma_zmdynamicic_insert 0 2 rmloc Ln M).1 nr).map
      (magma_zmdynamicic_insert 0 2 rmloc Ln M).1.col ∧
    ((rowChain (magma_zmdynamicic_insert 0 2 rmloc Ln M).1 nr).map
      (magma_zmdynamicic_insert 0 2 rmloc Ln M).1.col).Nodup ∧
    (magma_zmdynamicic_insert 0 2 rmloc Ln M).1.list (rmloc 1) = M.list (rmloc 1) ∧
    (magma_zmdynamicic_insert 0 2 rmloc Ln M).1.col (rmloc 1) = M.col (rmloc 1) ∧
    (magma_zmdynamicic_insert 0 2 rmloc Ln M).1.rowidx (rmloc 1)
      = M.rowidx (rmloc 1) ∧
    (magma_zmdynamicic_insert 0 2 rmloc Ln M).1.val (rmloc 1) = M.val (rmloc 1) := by
  have h3 : (rankCand Ln).nnz = 3 := hnnz
  have hr0 : (rankCand Ln).rowidx 0 = nr := hrow 0 (by omega)
  have hc0 : (rankCand Ln).col 0 = nc := hcol 0 (by omega)
  have hr1 : (rankCand Ln).rowidx (0+1) = nr := hrow (0+1) (by omega)
  have hc1 : (rankCand Ln).col (0+1) = nc := hcol (0+1) (by omega)
  have hr2 : (rankCand Ln).rowidx (0+1+1) = nr := hrow (0+1+1) (by omega)
  have hc2 : (rankCand Ln).col (0+1+1) = nc := hcol (0+1+1) (by omega)
  have hp1 := insertBody_preserve nr nc (rmloc 0) M 0 hinv hnr hnc hf0
  have hins1 := hp1.2.2.2.2.2.1 habs
  have hb2 : (insertBody nr nc (rmloc 0) M 0).2 = 1 := hins1.1
  have hfree1 : FreeSlot (insertBody nr nc (rmloc 0) M 0).1 (rmloc 1) :=
    hp1.2.2.2.1 (rmloc 1) hne01 hf1
  have hp2 := insertBody_preserve nr nc (rmloc 1)
    (insertBody nr nc (rmloc 0) M 0).1 1 hp1.2.2.1
    (by rw [hp1.1]; exact hnr) hnc hfree1
  have hB2 : insertBody nr nc (rmloc 1) (insertBody nr nc (rmloc 0) M 0).1 1
      = ((insertBody nr nc (rmloc 0) M 0).1, 1) := hp2.2.2.2.2.1 hins1.2
  have hB2a : (insertBody nr nc (rmloc 1)
      (insertBody nr nc (rmloc 0) M 0).1 1).2 = 1 := by rw [hB2]
  have hB2b : (insertBody nr nc (rmloc 1)
      (insertBody nr nc (rmloc 0) M 0).1 1).1
      = (insertBody nr nc (rmloc 0) M 0).1 := by rw [hB2]
  have hloop : insertLoop (rankCand Ln) 2 rmloc 3 0 0 M
      = ((insertBody nr nc (rmloc 0) M 0).1, 1) := by
    rw [insertLoop_succ, if_pos (by omega : (0:Nat) < 2),
      if_neg (by omega : ¬ ((rankCand Ln).nnz ≤ 0)), hr0, hc0, hb2]
    rw [insertLoop_succ, if_pos (by omega : (1:Nat) < 2),
      if_neg (by omega : ¬ ((rankCand Ln).nnz ≤ 0+1)), hr1, hc1, hB2a, hB2b]
    rw [insertLoop_succ, if_pos (by omega : (1:Nat) < 2),
      if_neg (by omega : ¬ ((rankCand Ln).nnz ≤ 0+1+1)), hr2, hc2, hB2a, hB2b]
    rfl
  have hmain : magma_zmdynamicic_insert 0 2 rmloc Ln M
      = ((insertBody nr nc (rmloc 0) M 0).1, 1, 0) := by
    unfold magma_zmdynamicic_insert
    rw [if_neg (by omega : ¬ (Ln.nnz ≤ 2)), if_neg (by simp : ¬ ((0:Int) ≠ 0))]
    dsimp only
    rw [h3, hloop]
  have hgood : GoodRow (insertBody nr nc (rmloc 0) M 0).1 nr
      (rowChain (insertBody nr nc (rmloc 0) M 0).1 nr) :=
    hp1.2.2.1 nr (by rw [hp1.1]; exact hnr)
  have hframe := hp1.2.2.2.2.2.2 (rmloc 1) hne01 (hf1.2.2 nr hnr)
  rw [hmain]
  exact ⟨rfl, hins1.2, goodRow_cols_nodup hgood, hframe.1, hframe.2.1,
    hframe.2.2.1, hframe.2.2.2⟩

theorem insert_duplicate_consumes_one_slot_witness :
    (magma_zmdynamicic_insert 0 2 (fun t => 6 + t) LnewC6 Wins).2.1 = 1 ∧
    1 ∈ (rowChain (magma_zmdynamicic_insert 0 2 (fun t => 6 + t) LnewC6 Wins).1 2).map
      (magma_zmdynamicic_insert 0 2 (fun t => 6 + t) LnewC6 Wins).1.col ∧
    ((rowChain (magma_zmdynamicic_insert 0 2 (fun t => 6 + t) LnewC6 Wins).1 2).map
      (magma_zmdynamicic_insert 0 2 (fun t => 6 + t) LnewC6 Wins).1.col).Nodup ∧
    (magma_zmdynamicic_insert 0 2 (fun t => 6 + t) LnewC6 Wins).1.list 7
      = Wins.list 7 ∧
    (magma_zmdynamicic_insert 0 2 (fun t => 6 + t) LnewC6 Wins).1.col 7
      = Wins.col 7 ∧
    (magma_zmdynamicic_insert 0 2 (fun t => 6 + t) LnewC6 Wins).1.rowidx 7
      = Wins.rowidx 7 ∧
    (magma_zmdynamicic_insert 0 2 (fun t => 6 + t) LnewC6 Wins).1.val 7
      = Wins.val 7 :=
  insert_duplicate_consumes_one_slot (fun t => 6 + t) LnewC6 Wins 2 1 (by decide)
    (by decide) (by decide) (by decide) rfl (fun q _ => rfl) (fun q _ => rfl)
    (by decide) (by decide) (by decide)
